import Mathlib

/-!
rangehdr: parsing of the HTTP Range header

A shallow embedding of `rangehdr.go`.  Go strings are modelled as `List Char`
(every comparison the program makes is against an ASCII character, so nothing
depends on the encoding), `int64` values as `Int` with explicit wrap-around,
and the three ways `parseRangeHeader` can end (a slice with a nil error, an
error, a run-time panic of the slice expression in `appendRange`) as the three
constructors of `Result`.
-/

namespace Rangehdr

/-! ## Machine integers -/

/-- The largest `int64`, Go's `math.MaxInt64`. -/
def maxInt64 : Int := 9223372036854775807

/-- The smallest `int64`. -/
def minInt64 : Int := -9223372036854775808

/-- The value an `int64` holds after a computation whose exact result is `x`. -/
def wrap64 (x : Int) : Int :=
  (x + 9223372036854775808) % 18446744073709551616 - 9223372036854775808

/-- Go's `a - b` on `int64`. -/
def sub64 (a b : Int) : Int := wrap64 (a - b)

/-- Go's `a + b` on `int64`. -/
def add64 (a b : Int) : Int := wrap64 (a + b)

/-- An exact integer fits in an `int64`. -/
def inInt64 (x : Int) : Prop := minInt64 ≤ x ∧ x ≤ maxInt64

instance (x : Int) : Decidable (inInt64 x) := by unfold inInt64; infer_instance

/-! ## The data model -/

/-- The `ByteRange` struct of `rangehdr.go`. -/
structure ByteRange where
  offset : Int
  length : Int
deriving DecidableEq, Repr

/-! ## The library functions the parser calls (Go release r60) -/

/-- The two error values `strconv` reports inside a `NumError`. -/
inductive OsError where
  | EINVAL
  | ERANGE
deriving DecidableEq, Repr

/-- Go's `strings.HasPrefix`:
`len(s) >= len(prefix) && s[0:len(prefix)] == prefix`. -/
def HasPrefix (s pre : List Char) : Bool :=
  decide (pre.length ≤ s.length) && decide (s.take pre.length = pre)

/-- Go's `strings.Split(s, sep, -1)` for a one-byte separator: the substrings
between the occurrences of `sep`, always at least one. -/
def Split (s : List Char) (sep : Char) : List (List Char) :=
  match s with
  | [] => [[]]
  | c :: cs =>
    if c = sep then [] :: Split cs sep
    else
      match Split cs sep with
      | [] => [[c]]
      | p :: ps => (c :: p) :: ps

/-- The value of one digit in the loop of `strconv.Btoui64`; `none` is the
`default` branch of its switch. -/
def digitVal (d : Char) : Option Nat :=
  if '0' ≤ d ∧ d ≤ '9' then some (d.toNat - 48)
  else if 'a' ≤ d ∧ d ≤ 'z' then some (d.toNat - 97 + 10)
  else if 'A' ≤ d ∧ d ≤ 'Z' then some (d.toNat - 65 + 10)
  else none

/-- Go's `cutoff64`: the first `n` for which `n * base` overflows `uint64`. -/
def cutoff64 (base : Nat) : Nat := 18446744073709551615 / base + 1

/-- The digit loop of `strconv.Btoui64`, for a base between 2 and 36, on the
digits still to read and the `uint64` accumulated so far. -/
def Btoui64Loop (b : Nat) : List Char → Nat → Nat × Option OsError
  | [], n => (n, none)
  | d :: rest, n =>
    match digitVal d with
    | none => (0, some OsError.EINVAL)
    | some v =>
      if b ≤ v then (0, some OsError.EINVAL)
      else if cutoff64 b ≤ n then (18446744073709551615, some OsError.ERANGE)
      else
        let m := (n * b) % 18446744073709551616
        let n1 := (m + v) % 18446744073709551616
        if n1 < m then (18446744073709551615, some OsError.ERANGE)
        else Btoui64Loop b rest n1

/-- Go's `strconv.Btoui64(s, b)` for a base between 2 and 36. -/
def Btoui64 (s : List Char) (b : Nat) : Nat × Option OsError :=
  if s.length < 1 then (0, some OsError.EINVAL) else Btoui64Loop b s 0

/-- Go's `strconv.Btoi64(s, base)`: an optional sign, then `Btoui64`, then the
range check against `int64`. -/
def Btoi64 (s : List Char) (base : Nat) : Int × Option OsError :=
  if s.length = 0 then (0, some OsError.EINVAL)
  else
    let signed : Bool × List Char :=
      match s with
      | '+' :: t => (false, t)
      | '-' :: t => (true, t)
      | _ => (false, s)
    let r := Btoui64 signed.2 base
    if r.2 ≠ none ∧ r.2 ≠ some OsError.ERANGE then (0, r.2)
    else if signed.1 = false ∧ 9223372036854775808 ≤ r.1 then
      (9223372036854775807, some OsError.ERANGE)
    else if signed.1 = true ∧ 9223372036854775808 < r.1 then
      (-9223372036854775808, some OsError.ERANGE)
    else
      let n := wrap64 (r.1 : Int)
      (if signed.1 then wrap64 (-n) else n, none)

/-- Go's `strconv.Atoi64(s)`, which is `Btoi64(s, 10)`. -/
def Atoi64 (s : List Char) : Int × Option OsError := Btoi64 s 10

/-! ## The parser -/

/-- What `parseRangeHeader` hands back: `ok ranges` is `(ranges, nil)` (the nil
slice of `return nil, nil` is the empty list), `error msg` is
`(nil, os.NewError(msg))`, and `panic` is the run-time failure of the slice
expression `ranges[0:len(ranges)+1]` once the capacity is exhausted. -/
inductive Result where
  | ok (ranges : List ByteRange)
  | error (msg : String)
  | panic
deriving DecidableEq, Repr

/-- How one pass through the body of the `for` loop ends. -/
inductive Step where
  | append (offset length : Int)
  | unsatisfiable
  | fail (msg : String)
deriving DecidableEq, Repr

/-- The capacity given to `ranges` by `make([]ByteRange, 0, 10)`. -/
def rangesCap : Nat := 10

/-- The constant `bytesPrefix` of `parseRangeHeader`. -/
def bytesUnit : List Char := "bytes=".data

/-- The body of the `for` loop of `parseRangeHeader` on one `rangeString`. -/
def rangeBody (rangeString : List Char) (fileLength : Int) : Step :=
  let parts := Split rangeString '-'
  if parts.length = 2 then
    let p0 := parts.getD 0 []
    let p1 := parts.getD 1 []
    if p0.length = 0 then
      let r := Atoi64 (rangeString.drop 1)
      if r.2 ≠ none ∨ r.1 < 0 then
        Step.fail ("suffix-length not parseable in range \"" ++ String.mk rangeString ++ "\"\n")
      else if r.1 = 0 then Step.unsatisfiable
      else
        let endingBytes := if r.1 > fileLength then fileLength else r.1
        Step.append (sub64 fileLength endingBytes) endingBytes
    else
      let s := Atoi64 p0
      if s.2 ≠ none then
        Step.fail ("Unable to parse first-byte-pos in range \"" ++ String.mk rangeString ++ "\"\n")
      else
        let startByte := s.1
        let e := if p1.length > 0 then Atoi64 p1 else (maxInt64, none)
        if e.2 ≠ none then
          Step.fail ("Unable to parse last-byte-pos in range \"" ++ String.mk rangeString ++ "\"\n")
        else if e.1 < startByte then
          Step.fail ("last-byte-pos precedes first-byte-pos in range \""
            ++ String.mk rangeString ++ "\"\n")
        else if startByte ≥ fileLength then Step.unsatisfiable
        else
          let endByte := if e.1 ≥ fileLength then sub64 fileLength 1 else e.1
          Step.append startByte (add64 (sub64 endByte startByte) 1)
  else
    Step.fail ("Invalid range \"" ++ String.mk rangeString ++ "\"\n")

/-- The `for` loop of `parseRangeHeader` over the range strings still to read,
with the slice `ranges` built so far. -/
def parseLoop (fileLength : Int) : List (List Char) → List ByteRange → Result
  | [], ranges => Result.ok ranges
  | rangeString :: rest, ranges =>
    match rangeBody rangeString fileLength with
    | Step.fail msg => Result.error msg
    | Step.unsatisfiable => Result.ok []
    | Step.append offset length =>
      if ranges.length + 1 ≤ rangesCap then
        parseLoop fileLength rest (ranges ++ [ByteRange.mk offset length])
      else Result.panic

/-- The function `parseRangeHeader` of `rangehdr.go`. -/
def parseRangeHeader (header : String) (fileLength : Int) : Result :=
  if HasPrefix header.data bytesUnit = false then
    Result.error ("Range header \"" ++ header ++ "\" is missing bytes-unit\n")
  else
    parseLoop fileLength (Split (header.data.drop bytesUnit.length) ',') []

/-- What `checkParseRangeHeader` of `rangehdr_test.go` compares of a result:
whether the error is nil, and the ranges; a call that ends in a panic gives
nothing to compare. -/
def observed : Result → Option (Bool × List ByteRange)
  | Result.ok ranges => some (true, ranges)
  | Result.error _ => some (false, [])
  | Result.panic => none

/-! ## The merger -/

/-- Both fields of the interval are `int64` values, as the struct requires. -/
def typed (r : ByteRange) : Prop := inInt64 r.offset ∧ inInt64 r.length

instance (r : ByteRange) : Decidable (typed r) := by unfold typed; infer_instance

/-- The body of the `for` loop of `joinByteRanges` on one `thisRange`: the state
is `totalRange` together with the local variable `end`. -/
def joinStep (st : ByteRange × Int) (thisRange : ByteRange) : ByteRange × Int :=
  let totalRange := st.1
  let end_ := st.2
  let totalRange1 :=
    if thisRange.offset < totalRange.offset ∧
        add64 thisRange.offset thisRange.length ≥ totalRange.offset then
      ByteRange.mk thisRange.offset (sub64 end_ thisRange.offset)
    else totalRange
  if thisRange.offset ≤ end_ ∧ add64 thisRange.offset thisRange.length > end_ then
    (ByteRange.mk totalRange1.offset
        (sub64 (add64 thisRange.offset thisRange.length) totalRange1.offset),
      add64 thisRange.offset thisRange.length)
  else (totalRange1, end_)

/-- The `for` loop of `joinByteRanges` over `ranges[1:len(ranges)]`. -/
def joinLoop (ranges : List ByteRange) (st : ByteRange × Int) : ByteRange × Int :=
  ranges.foldl joinStep st

/-- The function `joinByteRanges` of `rangehdr.go`; `none` is the run-time
failure of the index expression `ranges[0]` on an empty slice. -/
def joinByteRanges (ranges : List ByteRange) : Option ByteRange :=
  if ranges.length = 1 then ranges.head?
  else
    match ranges with
    | [] => none
    | totalRange :: rest =>
      some (joinLoop rest (totalRange, add64 totalRange.offset totalRange.length)).1

/-- The intervals the merger is meant for: an offset that is not negative, a
positive length, and an end `offset + length` that does not overflow. -/
def valid (r : ByteRange) : Prop :=
  0 ≤ r.offset ∧ 0 < r.length ∧ r.offset + r.length ≤ maxInt64

instance (r : ByteRange) : Decidable (valid r) := by unfold valid; infer_instance

/-- The invariant of the loop of `joinByteRanges` on valid input: `end` is the
exact end of `totalRange`, `totalRange` is valid and contains the first
interval `x0`, and every position of `totalRange` lies in an interval that
satisfies `S` (the intervals read so far). -/
def joinInv (S : ByteRange → Prop) (x0 : ByteRange) (st : ByteRange × Int) : Prop :=
  st.2 = st.1.offset + st.1.length ∧ valid st.1 ∧
  st.1.offset ≤ x0.offset ∧ x0.offset + x0.length ≤ st.2 ∧
  ∀ p : Int, st.1.offset ≤ p → p < st.2 → ∃ x, S x ∧ x.offset ≤ p ∧ p < x.offset + x.length

/-- The largest end `offset + length` among `m` and the ends of the intervals. -/
def largestEnd (m : Int) : List ByteRange → Int
  | [] => m
  | r :: rest => largestEnd (max m (r.offset + r.length)) rest

/-- Each interval starts at or before the largest end `m` of the intervals
before it. -/
def chained (m : Int) : List ByteRange → Prop
  | [] => True
  | r :: rest => r.offset ≤ m ∧ chained (max m (r.offset + r.length)) rest

instance chainedDecidable : (m : Int) → (rs : List ByteRange) → Decidable (chained m rs)
  | _, [] => isTrue trivial
  | m, r :: rest =>
    match Int.decLe r.offset m, chainedDecidable (max m (r.offset + r.length)) rest with
    | isTrue h1, isTrue h2 => isTrue ⟨h1, h2⟩
    | isFalse h1, _ => isFalse (fun h => h1 h.1)
    | _, isFalse h2 => isFalse (fun h => h2 h.2)

/-! ## The specification's reading of one byte-range-spec -/

/-- How the specification classifies one byte-range-spec against an entity
length; a satisfiable spec carries the interval it stands for, computed on
unbounded integers. -/
inductive SpecKind where
  | malformed
  | unsatisfiable
  | satisfiable (r : ByteRange)
deriving DecidableEq, Repr

/-- The last-byte-pos of the form `A-B` or `A-`: "if absent, treat as the
maximum representable 64-bit integer (open-ended)". -/
def lastBytePos (last : List Char) : Int × Option OsError :=
  if last = [] then (maxInt64, none) else Atoi64 last

/-- The classification of a byte-range-spec in the words of the specification
(section 4.1, step 3): exactly two parts around `-`; the suffix form `-N` is
unsatisfiable for `N = 0` and otherwise stands for the last `min N L` bytes;
the form `A-B` or `A-` is malformed for `B < A`, unsatisfiable for `A >= L` and
otherwise stands for the bytes `A` to `min B (L - 1)`. -/
def classify (spec : List Char) (entityLength : Int) : SpecKind :=
  match Split spec '-' with
  | [first, last] =>
    if first = [] then
      match Atoi64 last with
      | (n, none) =>
        if n < 0 then SpecKind.malformed
        else if n = 0 then SpecKind.unsatisfiable
        else SpecKind.satisfiable
          (ByteRange.mk (entityLength - min n entityLength) (min n entityLength))
      | (_, some _) => SpecKind.malformed
    else
      match Atoi64 first, lastBytePos last with
      | (a, none), (b, none) =>
        if b < a then SpecKind.malformed
        else if entityLength ≤ a then SpecKind.unsatisfiable
        else SpecKind.satisfiable (ByteRange.mk a (min b (entityLength - 1) - a + 1))
      | _, _ => SpecKind.malformed
  | _ => SpecKind.malformed

/-- The interval a byte-range-spec stands for when it is well-formed and
satisfiable, `none` otherwise. -/
def specInterval (entityLength : Int) (spec : List Char) : Option ByteRange :=
  match classify spec entityLength with
  | SpecKind.satisfiable r => some r
  | _ => none

/-- Every spec of the list is well-formed and satisfiable. -/
def allSatisfiable (specs : List (List Char)) (entityLength : Int) : Prop :=
  ∀ s ∈ specs, ∃ r, classify s entityLength = SpecKind.satisfiable r

/-- The byte-range-specs of a header that carries the unit: the text after
`bytes=`, split at the commas. -/
def specsOf (header : String) : List (List Char) :=
  Split (header.data.drop bytesUnit.length) ','

/-- The value of a string of decimal digits read after the number `n`. -/
def decVal : List Char → Nat → Nat
  | [], n => n
  | c :: cs, n => decVal cs (10 * n + (c.toNat - 48))

/-- Every character is one of `0` to `9`. -/
def allDigits (ds : List Char) : Prop := ∀ c ∈ ds, 48 ≤ c.toNat ∧ c.toNat ≤ 57

/-- The pieces put back together with `sep` between them. -/
def joinWith (sep : Char) : List (List Char) → List Char
  | [] => []
  | [p] => p
  | p :: q :: rest => p ++ sep :: joinWith sep (q :: rest)

/-! ## Facts about `Split` -/

theorem Split_ne_nil (s : List Char) (sep : Char) : Split s sep ≠ [] := by
  induction s with
  | nil => simp [Split]
  | cons c cs ih =>
    unfold Split
    split_ifs with h
    · simp
    · cases hs : Split cs sep with
      | nil => simp
      | cons p ps => simp

theorem Split_cons_sep (cs : List Char) (sep : Char) :
    Split (sep :: cs) sep = [] :: Split cs sep := by
  rw [Split, if_pos rfl]

theorem Split_cons_ne (c : Char) (cs p : List Char) (ps : List (List Char)) (sep : Char)
    (hc : c ≠ sep) (hs : Split cs sep = p :: ps) :
    Split (c :: cs) sep = (c :: p) :: ps := by
  rw [Split, if_neg hc, hs]

theorem Split_cons_exists (c : Char) (cs : List Char) (sep : Char) (hc : c ≠ sep) :
    ∃ p ps, Split cs sep = p :: ps ∧ Split (c :: cs) sep = (c :: p) :: ps := by
  cases hs : Split cs sep with
  | nil => exact absurd hs (Split_ne_nil cs sep)
  | cons p ps => exact ⟨p, ps, rfl, Split_cons_ne c cs p ps sep hc hs⟩

theorem Split_of_not_mem (s : List Char) (sep : Char) (h : sep ∉ s) :
    Split s sep = [s] := by
  induction s with
  | nil => simp [Split]
  | cons c cs ih =>
    have hc : c ≠ sep := fun e => h (by simp [e])
    have hcs : sep ∉ cs := fun e => h (by simp [e])
    exact Split_cons_ne c cs cs [] sep hc (ih hcs)

theorem Split_append_sep (a b : List Char) (sep : Char) (h : sep ∉ a) :
    Split (a ++ sep :: b) sep = a :: Split b sep := by
  induction a with
  | nil => exact Split_cons_sep b sep
  | cons c cs ih =>
    have hc : c ≠ sep := fun e => h (by simp [e])
    have hcs : sep ∉ cs := fun e => h (by simp [e])
    exact Split_cons_ne c (cs ++ sep :: b) cs (Split b sep) sep hc (ih hcs)

theorem not_mem_of_mem_Split (s : List Char) (sep : Char) :
    ∀ p ∈ Split s sep, sep ∉ p := by
  induction s with
  | nil => simp [Split]
  | cons c cs ih =>
    by_cases hc : c = sep
    · subst hc
      rw [Split_cons_sep]
      intro p hp
      rcases List.mem_cons.mp hp with e | e
      · simp [e]
      · exact ih p e
    · obtain ⟨q, qs, hs, hs2⟩ := Split_cons_exists c cs sep hc
      rw [hs2]
      rw [hs] at ih
      intro p hp
      rcases List.mem_cons.mp hp with e | e
      · subst e
        have hq := ih q (by simp)
        intro hm
        rcases List.mem_cons.mp hm with e2 | e2
        · exact hc e2.symm
        · exact hq e2
      · exact ih p (by simp [e])

theorem joinWith_Split (s : List Char) (sep : Char) : joinWith sep (Split s sep) = s := by
  induction s with
  | nil => simp [Split, joinWith]
  | cons c cs ih =>
    by_cases hc : c = sep
    · subst hc
      rw [Split_cons_sep]
      cases hs : Split cs c with
      | nil => exact absurd hs (Split_ne_nil cs c)
      | cons p ps =>
        rw [hs] at ih
        simp [joinWith, ih]
    · obtain ⟨q, qs, hs, hs2⟩ := Split_cons_exists c cs sep hc
      rw [hs2]
      rw [hs] at ih
      cases qs with
      | nil => simpa [joinWith] using ih
      | cons q2 qs2 =>
        simp only [joinWith] at ih ⊢
        simp [ih]

theorem Split_pair (s p0 p1 : List Char) (sep : Char) (h : Split s sep = [p0, p1]) :
    s = p0 ++ sep :: p1 ∧ sep ∉ p0 ∧ sep ∉ p1 := by
  have hj := joinWith_Split s sep
  rw [h] at hj
  have hm := not_mem_of_mem_Split s sep
  rw [h] at hm
  exact ⟨by simpa [joinWith] using hj.symm, hm p0 (by simp), hm p1 (by simp)⟩

/-! ## Facts about the number parser -/

theorem char_le_iff (c d : Char) : c ≤ d ↔ c.toNat ≤ d.toNat := Iff.rfl

theorem digitVal_of_digit (c : Char) (h : 48 ≤ c.toNat ∧ c.toNat ≤ 57) :
    digitVal c = some (c.toNat - 48) := by
  have h0 : ('0' : Char).toNat = 48 := rfl
  have h9 : ('9' : Char).toNat = 57 := rfl
  unfold digitVal
  rw [if_pos]
  rw [char_le_iff, char_le_iff, h0, h9]
  exact h

theorem le_decVal (ds : List Char) (n : Nat) : n ≤ decVal ds n := by
  induction ds generalizing n with
  | nil => simp [decVal]
  | cons c cs ih =>
    have := ih (10 * n + (c.toNat - 48))
    simp only [decVal]
    omega

theorem decVal_append (ds es : List Char) (n : Nat) :
    decVal (ds ++ es) n = decVal es (decVal ds n) := by
  induction ds generalizing n with
  | nil => simp [decVal]
  | cons c cs ih => simp [decVal, ih]

theorem Btoui64Loop_digits (ds : List Char) (n : Nat) (hd : allDigits ds)
    (hn : n < 18446744073709551616) :
    Btoui64Loop 10 ds n =
      if decVal ds n < 18446744073709551616 then (decVal ds n, none)
      else (18446744073709551615, some OsError.ERANGE) := by
  induction ds generalizing n with
  | nil => simp [Btoui64Loop, decVal, hn]
  | cons c cs ih =>
    have hc : 48 ≤ c.toNat ∧ c.toNat ≤ 57 := hd c (by simp)
    have hcs : allDigits cs := fun x hx => hd x (by simp [hx])
    have hge := le_decVal cs (10 * n + (c.toNat - 48))
    simp only [Btoui64Loop, digitVal_of_digit c hc, decVal]
    have hv : ¬ (10 ≤ c.toNat - 48) := by omega
    rw [if_neg hv]
    by_cases hcut : cutoff64 10 ≤ n
    · rw [if_pos hcut]
      have : cutoff64 10 = 1844674407370955162 := by decide
      rw [if_neg (by omega)]
    · rw [if_neg hcut]
      have hc10 : cutoff64 10 = 1844674407370955162 := by decide
      have hm : n * 10 % 18446744073709551616 = n * 10 := Nat.mod_eq_of_lt (by omega)
      simp only [hm]
      by_cases hov : n * 10 + (c.toNat - 48) < 18446744073709551616
      · have hm2 : (n * 10 + (c.toNat - 48)) % 18446744073709551616
            = n * 10 + (c.toNat - 48) := Nat.mod_eq_of_lt hov
        rw [hm2, if_neg (by omega), ih _ hcs hov]
        have e : n * 10 + (c.toNat - 48) = 10 * n + (c.toNat - 48) := by omega
        rw [e]
      · have hm2 : (n * 10 + (c.toNat - 48)) % 18446744073709551616 < n * 10 := by omega
        rw [if_pos hm2, if_neg (by omega)]

theorem Btoui64_digits (ds : List Char) (hd : allDigits ds) (hne : ds ≠ []) :
    Btoui64 ds 10 =
      if decVal ds 0 < 18446744073709551616 then (decVal ds 0, none)
      else (18446744073709551615, some OsError.ERANGE) := by
  have hl : ¬ ds.length < 1 := by
    cases ds with
    | nil => exact absurd rfl hne
    | cons c cs => simp
  rw [Btoui64, if_neg hl]
  exact Btoui64Loop_digits ds 0 hd (by decide)

theorem wrap64_of_inInt64 (x : Int) (h : inInt64 x) : wrap64 x = x := by
  unfold inInt64 minInt64 maxInt64 at h
  unfold wrap64
  omega

theorem Atoi64_digits (ds : List Char) (hd : allDigits ds) (hne : ds ≠ []) :
    Atoi64 ds =
      if decVal ds 0 < 9223372036854775808 then (((decVal ds 0 : Nat) : Int), none)
      else (9223372036854775807, some OsError.ERANGE) := by
  cases ds with
  | nil => exact absurd rfl hne
  | cons c cs =>
    have hc : 48 ≤ c.toNat ∧ c.toNat ≤ 57 := hd c (by simp)
    have hplus : c ≠ '+' := by
      intro e
      rw [e] at hc
      exact absurd hc (by decide)
    have hminus : c ≠ '-' := by
      intro e
      rw [e] at hc
      exact absurd hc (by decide)
    have hsig : (match c :: cs with
        | '+' :: t => (false, t)
        | '-' :: t => (true, t)
        | _ => (false, c :: cs)) = (false, c :: cs) := by
      split
      · rename_i t heq
        exact absurd (List.cons.inj heq).1 hplus
      · rename_i t heq
        exact absurd (List.cons.inj heq).1 hminus
      · rfl
    unfold Atoi64 Btoi64
    rw [if_neg (by simp)]
    simp only [hsig, Btoui64_digits (c :: cs) hd hne]
    by_cases h64 : decVal (c :: cs) 0 < 18446744073709551616
    · rw [if_pos h64]
      by_cases h63 : decVal (c :: cs) 0 < 9223372036854775808
      · rw [if_pos h63]
        have hw : wrap64 ((decVal (c :: cs) 0 : Nat) : Int) = (decVal (c :: cs) 0 : Nat) := by
          apply wrap64_of_inInt64
          unfold inInt64 minInt64 maxInt64
          omega
        simp [hw]
        omega
      · rw [if_neg h63]
        simp
        omega
    · rw [if_neg h64]
      have h63 : ¬ decVal (c :: cs) 0 < 9223372036854775808 := by omega
      rw [if_neg h63]
      simp

theorem Btoi64_ok (s : List Char) (base : Nat) (h : (Btoi64 s base).2 = none) :
    inInt64 (Btoi64 s base).1 ∧
      ((match s with
        | '+' :: t => (false, t)
        | '-' :: t => (true, t)
        | _ => (false, s)).1 = false → 0 ≤ (Btoi64 s base).1) := by
  unfold Btoi64 at h ⊢
  dsimp only at h ⊢
  generalize (match s with
      | '+' :: t => (false, t)
      | '-' :: t => (true, t)
      | _ => (false, s)) = sg at h ⊢
  generalize Btoui64 sg.2 base = r at h ⊢
  unfold inInt64 minInt64 maxInt64
  by_cases h0 : s.length = 0
  · rw [if_pos h0] at h
    simp at h
  · rw [if_neg h0] at h ⊢
    by_cases h1 : r.2 ≠ none ∧ r.2 ≠ some OsError.ERANGE
    · rw [if_pos h1] at h
      exact absurd h h1.1
    · rw [if_neg h1] at h ⊢
      by_cases h2 : sg.1 = false ∧ 9223372036854775808 ≤ r.1
      · rw [if_pos h2] at h
        simp at h
      · rw [if_neg h2] at h ⊢
        by_cases h3 : sg.1 = true ∧ 9223372036854775808 < r.1
        · rw [if_pos h3] at h
          simp at h
        · rw [if_neg h3]
          cases hb : sg.1 with
          | false =>
            have h4 : r.1 < 9223372036854775808 := by
              by_contra hc
              exact h2 ⟨hb, by omega⟩
            simp only [wrap64]
            refine ⟨⟨?_, ?_⟩, fun _ => ?_⟩ <;> simp <;> omega
          | true =>
            have h4 : r.1 ≤ 9223372036854775808 := by
              by_contra hc
              exact h3 ⟨hb, by omega⟩
            simp only [wrap64]
            refine ⟨⟨?_, ?_⟩, fun hf => ?_⟩
            · simp; omega
            · simp; omega
            · simp at hf

theorem Atoi64_range (s : List Char) (h : (Atoi64 s).2 = none) : inInt64 (Atoi64 s).1 :=
  (Btoi64_ok s 10 h).1

theorem Atoi64_nonneg (s : List Char) (hs : '-' ∉ s) (h : (Atoi64 s).2 = none) :
    0 ≤ (Atoi64 s).1 := by
  have hsig : (match s with
      | '+' :: t => (false, t)
      | '-' :: t => (true, t)
      | _ => (false, s)).1 = false := by
    split
    · rfl
    · exact absurd (by simp) hs
    · rfl
  exact (Btoi64_ok s 10 h).2 hsig

/-! ## The decimal rendering of a natural number -/

theorem digitChar_toNat (d : Nat) (h : d < 10) : (Nat.digitChar d).toNat = 48 + d := by
  interval_cases d <;> rfl

theorem toDigitsCore_spec (fuel n : Nat) (ds : List Char) (h : n < fuel) :
    ∃ pre, Nat.toDigitsCore 10 fuel n ds = pre ++ ds ∧ pre ≠ [] ∧ allDigits pre ∧
      decVal pre 0 = n := by
  induction fuel generalizing n ds with
  | zero => omega
  | succ f ih =>
    have hd : n % 10 < 10 := Nat.mod_lt n (by decide)
    have hch := digitChar_toNat (n % 10) hd
    unfold Nat.toDigitsCore
    dsimp only
    by_cases hz : n / 10 = 0
    · rw [if_pos hz]
      refine ⟨[Nat.digitChar (n % 10)], rfl, by simp, ?_, ?_⟩
      · intro c hc
        rw [List.mem_singleton] at hc
        subst hc
        omega
      · simp only [decVal]
        omega
    · rw [if_neg hz]
      obtain ⟨pre, h1, h2, h3, h4⟩ := ih (n / 10) (Nat.digitChar (n % 10) :: ds) (by omega)
      refine ⟨pre ++ [Nat.digitChar (n % 10)], by simp [h1], by simp, ?_, ?_⟩
      · intro c hc
        rcases List.mem_append.mp hc with hc | hc
        · exact h3 c hc
        · rw [List.mem_singleton] at hc
          subst hc
          omega
      · rw [decVal_append, h4]
        simp only [decVal]
        omega

theorem repr_spec (n : Nat) :
    allDigits (toString n).data ∧ (toString n).data ≠ [] ∧ decVal (toString n).data 0 = n := by
  obtain ⟨pre, h1, h2, h3, h4⟩ := toDigitsCore_spec (n + 1) n [] (by omega)
  have e : (toString n).data = pre := by
    show (Nat.toDigits 10 n) = pre
    simpa [Nat.toDigits] using h1
  rw [e]
  exact ⟨h3, h2, h4⟩

theorem not_mem_of_allDigits (ds : List Char) (c : Char) (hd : allDigits ds)
    (hc : ¬ (48 ≤ c.toNat ∧ c.toNat ≤ 57)) : c ∉ ds :=
  fun h => hc (hd c h)

theorem Atoi64_repr (n : Nat) (h : (n : Int) ≤ maxInt64) :
    Atoi64 (toString n).data = ((n : Int), none) := by
  obtain ⟨h1, h2, h3⟩ := repr_spec n
  rw [Atoi64_digits _ h1 h2, h3, if_pos]
  unfold maxInt64 at h
  omega

theorem Atoi64_repr_big (n : Nat) (h : maxInt64 < (n : Int)) :
    (Atoi64 (toString n).data).2 = some OsError.ERANGE := by
  obtain ⟨h1, h2, h3⟩ := repr_spec n
  rw [Atoi64_digits _ h1 h2, h3, if_neg]
  unfold maxInt64 at h
  omega

/-! ## The loop body against the specification's classification -/

theorem sub64_eq (a b : Int) (h : inInt64 (a - b)) : sub64 a b = a - b :=
  wrap64_of_inInt64 _ h

theorem add64_eq (a b : Int) (h : inInt64 (a + b)) : add64 a b = a + b :=
  wrap64_of_inInt64 _ h

/-- The suffix form: the body of the loop on `-N`. -/
theorem rangeBody_suffix (s p1 : List Char) (L : Int) (hL : inInt64 L)
    (hs : Split s '-' = [[], p1]) :
    (∀ e, (Atoi64 p1).2 = some e → ∃ msg, rangeBody s L = Step.fail msg) ∧
    ((Atoi64 p1).2 = none → (Atoi64 p1).1 = 0 → rangeBody s L = Step.unsatisfiable) ∧
    ((Atoi64 p1).2 = none → (Atoi64 p1).1 ≠ 0 →
      0 < (Atoi64 p1).1 ∧
      rangeBody s L = Step.append (L - min (Atoi64 p1).1 L) (min (Atoi64 p1).1 L)) := by
  obtain ⟨heq, -, hm⟩ := Split_pair s [] p1 '-' hs
  have hdrop : s.drop 1 = p1 := by rw [heq]; rfl
  have hbody : rangeBody s L =
      (if (Atoi64 p1).2 ≠ none ∨ (Atoi64 p1).1 < 0 then
        Step.fail ("suffix-length not parseable in range \"" ++ String.mk s ++ "\"\n")
      else if (Atoi64 p1).1 = 0 then Step.unsatisfiable
      else Step.append (sub64 L (if (Atoi64 p1).1 > L then L else (Atoi64 p1).1))
        (if (Atoi64 p1).1 > L then L else (Atoi64 p1).1)) := by
    unfold rangeBody
    simp only [hs, hdrop]
    simp
  refine ⟨?_, ?_, ?_⟩
  · intro e he
    rw [hbody, if_pos (Or.inl (by simp [he]))]
    exact ⟨_, rfl⟩
  · intro he h0
    rw [hbody, if_neg (by simp [he, h0]), if_pos h0]
  · intro he h0
    have hnn := Atoi64_nonneg p1 hm he
    have hr := Atoi64_range p1 he
    have hpos : 0 < (Atoi64 p1).1 := lt_of_le_of_ne hnn (Ne.symm h0)
    refine ⟨hpos, ?_⟩
    rw [hbody, if_neg (by simp [he, hnn]), if_neg h0]
    unfold inInt64 minInt64 maxInt64 at hL hr
    by_cases hgt : (Atoi64 p1).1 > L
    · rw [if_pos hgt, min_eq_right (le_of_lt hgt)]
      rw [sub64_eq _ _ (by unfold inInt64 minInt64 maxInt64; omega)]
    · rw [if_neg hgt, min_eq_left (not_lt.mp hgt)]
      rw [sub64_eq _ _ (by unfold inInt64 minInt64 maxInt64; omega)]

/-- The start/end form: the body of the loop on `A-B` or `A-`. -/
theorem rangeBody_startEnd (s p0 p1 : List Char) (L : Int) (hL : inInt64 L)
    (hs : Split s '-' = [p0, p1]) (hp0 : p0 ≠ []) :
    (∀ e, (Atoi64 p0).2 = some e → ∃ msg, rangeBody s L = Step.fail msg) ∧
    ((Atoi64 p0).2 = none → ∀ e, (lastBytePos p1).2 = some e →
      ∃ msg, rangeBody s L = Step.fail msg) ∧
    ((Atoi64 p0).2 = none → (lastBytePos p1).2 = none →
      (lastBytePos p1).1 < (Atoi64 p0).1 →
      rangeBody s L = Step.fail ("last-byte-pos precedes first-byte-pos in range \""
        ++ String.mk s ++ "\"\n")) ∧
    ((Atoi64 p0).2 = none → (lastBytePos p1).2 = none →
      (Atoi64 p0).1 ≤ (lastBytePos p1).1 → L ≤ (Atoi64 p0).1 →
      rangeBody s L = Step.unsatisfiable) ∧
    ((Atoi64 p0).2 = none → (lastBytePos p1).2 = none →
      (Atoi64 p0).1 ≤ (lastBytePos p1).1 → (Atoi64 p0).1 < L →
      0 ≤ (Atoi64 p0).1 ∧
      rangeBody s L = Step.append (Atoi64 p0).1
        (min (lastBytePos p1).1 (L - 1) - (Atoi64 p0).1 + 1)) := by
  obtain ⟨-, hm0, hm1⟩ := Split_pair s p0 p1 '-' hs
  have hlen : p0.length ≠ 0 := by
    intro h
    exact hp0 (List.length_eq_zero.mp h)
  have hbody : rangeBody s L =
      (if (Atoi64 p0).2 ≠ none then
        Step.fail ("Unable to parse first-byte-pos in range \"" ++ String.mk s ++ "\"\n")
      else if (lastBytePos p1).2 ≠ none then
        Step.fail ("Unable to parse last-byte-pos in range \"" ++ String.mk s ++ "\"\n")
      else if (lastBytePos p1).1 < (Atoi64 p0).1 then
        Step.fail ("last-byte-pos precedes first-byte-pos in range \""
          ++ String.mk s ++ "\"\n")
      else if (Atoi64 p0).1 ≥ L then Step.unsatisfiable
      else Step.append (Atoi64 p0).1
        (add64 (sub64 (if (lastBytePos p1).1 ≥ L then sub64 L 1 else (lastBytePos p1).1)
          (Atoi64 p0).1) 1)) := by
    have hl : (if p1.length > 0 then Atoi64 p1 else (maxInt64, none)) = lastBytePos p1 := by
      unfold lastBytePos
      cases p1 <;> simp
    unfold rangeBody
    simp only [hs]
    simp only [List.getD_cons_zero, List.getD_cons_succ, List.length_cons, List.length_nil,
      hl, if_neg hlen]
    simp
  refine ⟨?_, ?_, ?_, ?_, ?_⟩
  · intro e he
    rw [hbody, if_pos (by simp [he])]
    exact ⟨_, rfl⟩
  · intro h0 e he
    rw [hbody, if_neg (by simp [h0]), if_pos (by simp [he])]
    exact ⟨_, rfl⟩
  · intro h0 h1 hlt
    rw [hbody, if_neg (by simp [h0]), if_neg (by simp [h1]), if_pos hlt]
  · intro h0 h1 hle hge
    rw [hbody, if_neg (by simp [h0]), if_neg (by simp [h1]), if_neg (not_lt.mpr hle),
      if_pos hge]
  · intro h0 h1 hle hlt
    have hnn := Atoi64_nonneg p0 hm0 h0
    have hr0 := Atoi64_range p0 h0
    have hr1 : inInt64 (lastBytePos p1).1 := by
      unfold lastBytePos at h1 ⊢
      split_ifs at h1 ⊢ with hp
      · unfold inInt64 minInt64 maxInt64; omega
      · exact Atoi64_range p1 h1
    refine ⟨hnn, ?_⟩
    rw [hbody, if_neg (by simp [h0]), if_neg (by simp [h1]), if_neg (not_lt.mpr hle),
      if_neg (not_le.mpr hlt)]
    unfold inInt64 minInt64 maxInt64 at hL hr0 hr1
    by_cases hge : (lastBytePos p1).1 ≥ L
    · rw [if_pos hge, min_eq_right (by omega)]
      rw [sub64_eq L 1 (by unfold inInt64 minInt64 maxInt64; omega)]
      rw [sub64_eq _ _ (by unfold inInt64 minInt64 maxInt64; omega)]
      rw [add64_eq _ _ (by unfold inInt64 minInt64 maxInt64; omega)]
    · rw [if_neg hge, min_eq_left (by omega)]
      rw [sub64_eq _ _ (by unfold inInt64 minInt64 maxInt64; omega)]
      rw [add64_eq _ _ (by unfold inInt64 minInt64 maxInt64; omega)]

theorem rangeBody_invalid (s : List Char) (L : Int) (h : (Split s '-').length ≠ 2) :
    rangeBody s L = Step.fail ("Invalid range \"" ++ String.mk s ++ "\"\n") := by
  unfold rangeBody
  simp [h]

theorem rangeBody_of_classify (s : List Char) (L : Int) (hL : inInt64 L) :
    (classify s L = SpecKind.malformed → ∃ msg, rangeBody s L = Step.fail msg) ∧
    (classify s L = SpecKind.unsatisfiable → rangeBody s L = Step.unsatisfiable) ∧
    (∀ r, classify s L = SpecKind.satisfiable r →
      rangeBody s L = Step.append r.offset r.length) := by
  have hinv : (Split s '-').length ≠ 2 → classify s L = SpecKind.malformed ∧
      ∃ msg, rangeBody s L = Step.fail msg := by
    intro h
    refine ⟨?_, _, rangeBody_invalid s L h⟩
    unfold classify
    split
    · rename_i heq
      simp [heq] at h
    · rfl
  by_cases hlen : (Split s '-').length = 2
  · obtain ⟨p0, p1, hs⟩ := List.length_eq_two.mp hlen
    by_cases hp0 : p0 = []
    · subst hp0
      obtain ⟨h1, h2, h3⟩ := rangeBody_suffix s p1 L hL hs
      have hc : classify s L =
          match Atoi64 p1 with
          | (n, none) =>
            if n < 0 then SpecKind.malformed
            else if n = 0 then SpecKind.unsatisfiable
            else SpecKind.satisfiable (ByteRange.mk (L - min n L) (min n L))
          | (_, some _) => SpecKind.malformed := by
        unfold classify
        simp only [hs]
        simp
      rw [hc]
      have hnn0 := Atoi64_nonneg p1 (Split_pair s [] p1 '-' hs).2.2
      rcases hA : Atoi64 p1 with ⟨n, e⟩
      rw [hA] at h1 h2 h3 hnn0
      cases e with
      | some e =>
        obtain ⟨msg, hmsg⟩ := h1 e rfl
        simp [hmsg]
      | none =>
        have hnn : 0 ≤ n := hnn0 rfl
        by_cases hz : n = 0
        · subst hz
          simp [h2 rfl rfl]
        · obtain ⟨hpos, hb⟩ := h3 rfl hz
          simp only [if_neg (not_lt.mpr hnn), if_neg hz]
          simp [hb]
    · obtain ⟨h1, h2, h3, h4, h5⟩ := rangeBody_startEnd s p0 p1 L hL hs hp0
      have hc : classify s L =
          match Atoi64 p0, lastBytePos p1 with
          | (a, none), (b, none) =>
            if b < a then SpecKind.malformed
            else if L ≤ a then SpecKind.unsatisfiable
            else SpecKind.satisfiable (ByteRange.mk a (min b (L - 1) - a + 1))
          | _, _ => SpecKind.malformed := by
        unfold classify
        simp only [hs]
        simp [hp0]
      rw [hc]
      rcases hA : Atoi64 p0 with ⟨a, ea⟩
      rcases hB : lastBytePos p1 with ⟨b, eb⟩
      rw [hA] at h1 h2 h3 h4 h5
      rw [hB] at h2 h3 h4 h5
      cases ea with
      | some e =>
        obtain ⟨msg, hmsg⟩ := h1 e rfl
        simp [hmsg]
      | none =>
        cases eb with
        | some e =>
          obtain ⟨msg, hmsg⟩ := h2 rfl e rfl
          simp [hmsg]
        | none =>
          by_cases hlt : b < a
          · simp [hlt, h3 rfl rfl hlt]
          · by_cases hge : L ≤ a
            · simp [hlt, hge, h4 rfl rfl (not_lt.mp hlt) hge]
            · obtain ⟨-, hb⟩ := h5 rfl rfl (not_lt.mp hlt) (not_le.mp hge)
              simp [hlt, hge, hb]
  · obtain ⟨hc, msg, hmsg⟩ := hinv hlen
    simp [hc, hmsg]

/-! ## The loop and the header -/

theorem HasPrefix_iff (s pre : List Char) : HasPrefix s pre = true ↔ ∃ t, s = pre ++ t := by
  unfold HasPrefix
  constructor
  · intro h
    simp only [Bool.and_eq_true, decide_eq_true_eq] at h
    refine ⟨s.drop pre.length, ?_⟩
    conv_lhs => rw [← List.take_append_drop pre.length s]
    rw [h.2]
  · rintro ⟨t, rfl⟩
    simp

theorem parseRangeHeader_unit (rest : String) (L : Int) :
    parseRangeHeader ("bytes=" ++ rest) L = parseLoop L (Split rest.data ',') [] := by
  have hp : HasPrefix ("bytes=" ++ rest).data bytesUnit = true := by
    rw [HasPrefix_iff]
    exact ⟨rest.data, by simp [bytesUnit]⟩
  have hd : ("bytes=" ++ rest).data.drop bytesUnit.length = rest.data := by
    have : ("bytes=" ++ rest).data = bytesUnit ++ rest.data := by simp [bytesUnit]
    rw [this, List.drop_left]
  unfold parseRangeHeader
  rw [if_neg (by rw [hp]; simp), hd]

theorem parseRangeHeader_of_unit (header : String) (L : Int)
    (h : HasPrefix header.data bytesUnit = true) :
    parseRangeHeader header L = parseLoop L (specsOf header) [] := by
  unfold parseRangeHeader specsOf
  rw [if_neg (by rw [h]; simp)]

theorem specsOf_unit (rest : String) : specsOf ("bytes=" ++ rest) = Split rest.data ',' := by
  unfold specsOf
  have : ("bytes=" ++ rest).data = bytesUnit ++ rest.data := by simp [bytesUnit]
  rw [this, List.drop_left]

theorem specInterval_of_satisfiable (s : List Char) (L : Int) (r : ByteRange)
    (h : classify s L = SpecKind.satisfiable r) : specInterval L s = some r := by
  unfold specInterval
  rw [h]

theorem specInterval_eq_some (s : List Char) (L : Int) (r : ByteRange)
    (h : specInterval L s = some r) : classify s L = SpecKind.satisfiable r := by
  unfold specInterval at h
  split at h
  · rename_i r2 heq
    rw [heq, Option.some.inj h]
  · exact absurd h (by simp)

theorem filterMap_allSatisfiable_length (specs : List (List Char)) (L : Int)
    (h : allSatisfiable specs L) : (specs.filterMap (specInterval L)).length = specs.length := by
  induction specs with
  | nil => rfl
  | cons s rest ih =>
    obtain ⟨r, hr⟩ := h s (by simp)
    have hrest : allSatisfiable rest L := fun x hx => h x (by simp [hx])
    rw [List.filterMap_cons_some (specInterval_of_satisfiable s L r hr)]
    simp [ih hrest]

/-- While the specs are well-formed and satisfiable and the slice has room, the
loop appends their intervals and goes on. -/
theorem parseLoop_satisfiable (L : Int) (hL : inInt64 L) (pre rest : List (List Char))
    (ranges : List ByteRange) (hsat : allSatisfiable pre L)
    (hcap : ranges.length + pre.length ≤ rangesCap) :
    parseLoop L (pre ++ rest) ranges =
      parseLoop L rest (ranges ++ pre.filterMap (specInterval L)) := by
  induction pre generalizing ranges with
  | nil => simp
  | cons s tl ih =>
    obtain ⟨r, hr⟩ := hsat s (by simp)
    have htl : allSatisfiable tl L := fun x hx => hsat x (by simp [hx])
    have hb := (rangeBody_of_classify s L hL).2.2 r hr
    have hlen : ranges.length + 1 ≤ rangesCap := by
      simp only [List.length_cons] at hcap
      omega
    rw [List.cons_append, parseLoop, hb]
    simp only
    rw [if_pos hlen, ih (ranges ++ [ByteRange.mk r.offset r.length]) htl
      (by simp only [List.length_append, List.length_cons, List.length_nil] at hcap ⊢; omega)]
    rw [List.filterMap_cons_some (specInterval_of_satisfiable s L r hr)]
    simp

/-- Once more well-formed and satisfiable specs are read than the slice has
room for, the slice expression of `appendRange` fails. -/
theorem parseLoop_overflow (L : Int) (hL : inInt64 L) (pre rest : List (List Char))
    (ranges : List ByteRange) (hsat : allSatisfiable pre L)
    (hlen : ranges.length ≤ rangesCap)
    (hcap : rangesCap < ranges.length + pre.length) :
    parseLoop L (pre ++ rest) ranges = Result.panic := by
  induction pre generalizing ranges with
  | nil =>
    simp only [List.length_nil] at hcap
    omega
  | cons s tl ih =>
    obtain ⟨r, hr⟩ := hsat s (by simp)
    have htl : allSatisfiable tl L := fun x hx => hsat x (by simp [hx])
    have hb := (rangeBody_of_classify s L hL).2.2 r hr
    rw [List.cons_append, parseLoop, hb]
    simp only
    by_cases hroom : ranges.length + 1 ≤ rangesCap
    · rw [if_pos hroom]
      apply ih _ htl
      · simpa using hroom
      · simp only [List.length_append, List.length_cons, List.length_nil] at hcap ⊢
        omega
    · rw [if_neg hroom]

/-- What a no-error end of the loop tells: either it stopped at an
unsatisfiable spec after satisfiable ones and returned nothing, or every spec
was satisfiable and the intervals were appended in order. -/
theorem parseLoop_ok (L : Int) (hL : inInt64 L) (specs : List (List Char))
    (ranges rs : List ByteRange) (h : parseLoop L specs ranges = Result.ok rs) :
    (rs = [] ∧ ∃ pre s post, specs = pre ++ s :: post ∧ allSatisfiable pre L ∧
        classify s L = SpecKind.unsatisfiable) ∨
    (allSatisfiable specs L ∧ rs = ranges ++ specs.filterMap (specInterval L)) := by
  induction specs generalizing ranges with
  | nil =>
    right
    simp only [parseLoop, Result.ok.injEq] at h
    exact ⟨fun s hs => absurd hs (by simp), by simp [h]⟩
  | cons s tl ih =>
    obtain ⟨hm, hu, hsat⟩ := rangeBody_of_classify s L hL
    rw [parseLoop] at h
    cases hc : classify s L with
    | malformed =>
      obtain ⟨msg, hmsg⟩ := hm hc
      rw [hmsg] at h
      simp at h
    | unsatisfiable =>
      rw [hu hc] at h
      simp only [Result.ok.injEq] at h
      left
      exact ⟨h.symm, [], s, tl, rfl, fun x hx => absurd hx (by simp), hc⟩
    | satisfiable r =>
      rw [hsat r hc] at h
      simp only at h
      split_ifs at h with hroom
      rcases ih _ h with ⟨h1, pre, s2, post, h2, h3, h4⟩ | ⟨h1, h2⟩
      · left
        refine ⟨h1, s :: pre, s2, post, by simp [h2], ?_, h4⟩
        intro x hx
        rcases List.mem_cons.mp hx with e | e
        · exact ⟨r, by rw [e, hc]⟩
        · exact h3 x e
      · right
        constructor
        · intro x hx
          rcases List.mem_cons.mp hx with e | e
          · exact ⟨r, by rw [e, hc]⟩
          · exact h1 x e
        · rw [List.filterMap_cons_some (specInterval_of_satisfiable s L r hc), h2]
          simp

/-! ## Headers with a single byte-range-spec -/

theorem parseLoop_single (L : Int) (s : List Char) :
    parseLoop L [s] [] =
      match rangeBody s L with
      | Step.fail msg => Result.error msg
      | Step.unsatisfiable => Result.ok []
      | Step.append offset length => Result.ok [ByteRange.mk offset length] := by
  rw [parseLoop]
  cases rangeBody s L with
  | fail msg => rfl
  | unsatisfiable => rfl
  | append o l =>
    simp only
    rw [if_pos (by decide)]
    rfl

theorem comma_not_mem_repr (n : Nat) : ',' ∉ (toString n).data :=
  not_mem_of_allDigits _ _ (repr_spec n).1 (by decide)

theorem dash_not_mem_repr (n : Nat) : '-' ∉ (toString n).data :=
  not_mem_of_allDigits _ _ (repr_spec n).1 (by decide)

/-- The header `bytes=A-B` holds the one spec `A-B`, whose parts are `A` and `B`. -/
theorem startEnd_header (A B : Nat) (L : Int) :
    parseRangeHeader ("bytes=" ++ toString A ++ "-" ++ toString B) L =
      parseLoop L [(toString A).data ++ '-' :: (toString B).data] [] ∧
    Split ((toString A).data ++ '-' :: (toString B).data) '-' =
      [(toString A).data, (toString B).data] := by
  constructor
  · have e : "bytes=" ++ toString A ++ "-" ++ toString B
        = "bytes=" ++ (toString A ++ "-" ++ toString B) := by
      simp [String.append_assoc]
    have hd : (toString A ++ "-" ++ toString B).data
        = (toString A).data ++ '-' :: (toString B).data := by
      simp
    rw [e, parseRangeHeader_unit, hd, Split_of_not_mem]
    intro hm
    rcases List.mem_append.mp hm with h | h
    · exact comma_not_mem_repr A h
    · rcases List.mem_cons.mp h with h | h
      · exact absurd h (by decide)
      · exact comma_not_mem_repr B h
  · rw [Split_append_sep _ _ _ (dash_not_mem_repr A), Split_of_not_mem _ _ (dash_not_mem_repr B)]

/-- C1: for `0 <= A < L` and `A <= B <= MaxInt64` in plain decimal digits,
`parseRangeHeader("bytes=A-B", L)` returns no error and exactly one interval,
with offset `A` and length `min(B, L-1) - A + 1`; when `B < L` that interval is
`{A, B-A+1}`. -/
theorem parse_start_end (L : Int) (A B : Nat) (hL : L ≤ maxInt64) (hA : (A : Int) < L)
    (hAB : A ≤ B) (hB : (B : Int) ≤ maxInt64) :
    parseRangeHeader ("bytes=" ++ toString A ++ "-" ++ toString B) L =
      Result.ok [ByteRange.mk A (min (B : Int) (L - 1) - A + 1)] ∧
    ((B : Int) < L →
      parseRangeHeader ("bytes=" ++ toString A ++ "-" ++ toString B) L =
        Result.ok [ByteRange.mk A (B - A + 1)]) := by
  have hLin : inInt64 L := by
    unfold inInt64 minInt64
    omega
  have hAmax : (A : Int) ≤ maxInt64 := by omega
  obtain ⟨hh, hs⟩ := startEnd_header A B L
  have hA0 := Atoi64_repr A hAmax
  have hB0 := Atoi64_repr B hB
  have hlast : lastBytePos (toString B).data = ((B : Int), none) := by
    unfold lastBytePos
    rw [if_neg (repr_spec B).2.1, hB0]
  obtain ⟨-, -, -, -, h5⟩ := rangeBody_startEnd _ _ _ L hLin hs (repr_spec A).2.1
  rw [hA0, hlast] at h5
  obtain ⟨-, hb⟩ := h5 rfl rfl (Int.ofNat_le.mpr hAB) hA
  have main : parseRangeHeader ("bytes=" ++ toString A ++ "-" ++ toString B) L =
      Result.ok [ByteRange.mk A (min (B : Int) (L - 1) - A + 1)] := by
    rw [hh, parseLoop_single, hb]
  refine ⟨main, fun hlt => ?_⟩
  rw [main, min_eq_left (by omega)]

theorem parse_start_end_witness :
    (10 : Int) ≤ maxInt64 ∧ ((0 : Nat) : Int) < 10 ∧ 0 ≤ 20 ∧ ((20 : Nat) : Int) ≤ maxInt64 ∧
    (parseRangeHeader ("bytes=" ++ toString 0 ++ "-" ++ toString 20) 10 =
      Result.ok [ByteRange.mk (0 : Nat) (min ((20 : Nat) : Int) (10 - 1) - (0 : Nat) + 1)] ∧
    (((20 : Nat) : Int) < 10 →
      parseRangeHeader ("bytes=" ++ toString 0 ++ "-" ++ toString 20) 10 =
        Result.ok [ByteRange.mk (0 : Nat) ((20 : Nat) - (0 : Nat) + 1)])) :=
  ⟨by decide, by decide, by decide, by decide,
    parse_start_end 10 0 20 (by decide) (by decide) (by decide) (by decide)⟩

/-- C2: for `L >= 0` and `1 <= N <= MaxInt64` in plain decimal digits,
`parseRangeHeader("bytes=-N", L)` returns no error and exactly the interval
`{L - min(N, L), min(N, L)}`, the last `min(N, L)` bytes of the entity. -/
theorem parse_suffix (L : Int) (N : Nat) (hL0 : 0 ≤ L) (hL : L ≤ maxInt64) (hN1 : 1 ≤ N)
    (hN : (N : Int) ≤ maxInt64) :
    parseRangeHeader ("bytes=-" ++ toString N) L =
      Result.ok [ByteRange.mk (L - min (N : Int) L) (min (N : Int) L)] := by
  have hLin : inInt64 L := by
    unfold inInt64 minInt64
    omega
  have e : "bytes=-" ++ toString N = "bytes=" ++ ("-" ++ toString N) := by
    rw [← String.append_assoc]
    rfl
  have hd : ("-" ++ toString N).data = '-' :: (toString N).data := by simp
  have hcomma : ',' ∉ '-' :: (toString N).data := by
    intro hm
    rcases List.mem_cons.mp hm with h | h
    · exact absurd h (by decide)
    · exact comma_not_mem_repr N h
  have hs : Split ('-' :: (toString N).data) '-' = [[], (toString N).data] := by
    rw [Split_cons_sep, Split_of_not_mem _ _ (dash_not_mem_repr N)]
  obtain ⟨-, -, h3⟩ := rangeBody_suffix _ _ L hLin hs
  rw [Atoi64_repr N hN] at h3
  obtain ⟨-, hb⟩ := h3 rfl (by simp only [ne_eq]; omega)
  rw [e, parseRangeHeader_unit, hd, Split_of_not_mem _ _ hcomma, parseLoop_single, hb]

theorem parse_suffix_witness :
    (0 : Int) ≤ 10 ∧ (10 : Int) ≤ maxInt64 ∧ 1 ≤ 15 ∧ ((15 : Nat) : Int) ≤ maxInt64 ∧
    parseRangeHeader ("bytes=-" ++ toString 15) 10 =
      Result.ok [ByteRange.mk (10 - min ((15 : Nat) : Int) 10) (min ((15 : Nat) : Int) 10)] :=
  ⟨by decide, by decide, by decide, by decide,
    parse_suffix 10 15 (by decide) (by decide) (by decide) (by decide)⟩

/-- C4: a header that does not begin with the literal `bytes=` is answered with
the missing-unit error, whatever the entity length, and never with an empty
no-error result. -/
theorem parse_missing_unit (header : String) (L : Int)
    (h : ¬ ∃ rest : String, header = "bytes=" ++ rest) :
    parseRangeHeader header L =
      Result.error ("Range header \"" ++ header ++ "\" is missing bytes-unit\n") ∧
    parseRangeHeader header L ≠ Result.ok [] := by
  have hp : HasPrefix header.data bytesUnit = false := by
    cases hb : HasPrefix header.data bytesUnit with
    | false => rfl
    | true =>
      exfalso
      obtain ⟨t, ht⟩ := (HasPrefix_iff _ _).mp hb
      apply h
      refine ⟨String.mk t, ?_⟩
      apply String.ext
      rw [ht]
      simp [bytesUnit]
  have main : parseRangeHeader header L =
      Result.error ("Range header \"" ++ header ++ "\" is missing bytes-unit\n") := by
    unfold parseRangeHeader
    rw [if_pos hp]
  exact ⟨main, by rw [main]; simp⟩

theorem parse_missing_unit_witness :
    (¬ ∃ rest : String, "0-5" = "bytes=" ++ rest) ∧
    (parseRangeHeader "0-5" 10 =
      Result.error ("Range header \"" ++ "0-5" ++ "\" is missing bytes-unit\n") ∧
    parseRangeHeader "0-5" 10 ≠ Result.ok []) :=
  have hne : ¬ ∃ rest : String, "0-5" = "bytes=" ++ rest := by
    rintro ⟨rest, h⟩
    have hd := congrArg String.data h
    rw [String.data_append] at hd
    exact absurd hd (by simp)
  ⟨hne, parse_missing_unit "0-5" 10 hne⟩

/-- C8: for `0 <= B < A` in plain decimal digits, `parseRangeHeader("bytes=A-B", L)`
returns an error for every entity length, also when `A >= L`; whenever `A`
fits in an `int64` it is the error of the inversion check, which comes before
the check of `A` against the entity length. -/
theorem parse_inverted (L : Int) (A B : Nat) (hL : inInt64 L) (hBA : B < A) :
    ∃ msg, parseRangeHeader ("bytes=" ++ toString A ++ "-" ++ toString B) L = Result.error msg ∧
      ((A : Int) ≤ maxInt64 →
        msg = "last-byte-pos precedes first-byte-pos in range \""
          ++ (toString A ++ "-" ++ toString B) ++ "\"\n") := by
  obtain ⟨hh, hs⟩ := startEnd_header A B L
  obtain ⟨h1, -, h3, -, -⟩ := rangeBody_startEnd _ _ _ L hL hs (repr_spec A).2.1
  by_cases hA : (A : Int) ≤ maxInt64
  · have hB : (B : Int) ≤ maxInt64 := by omega
    have hlast : lastBytePos (toString B).data = ((B : Int), none) := by
      unfold lastBytePos
      rw [if_neg (repr_spec B).2.1, Atoi64_repr B hB]
    rw [Atoi64_repr A hA, hlast] at h3
    have hb := h3 rfl rfl (Int.ofNat_lt.mpr hBA)
    refine ⟨_, by rw [hh, parseLoop_single, hb], fun _ => ?_⟩
    congr 2
    apply String.ext
    simp
  · have hbig := Atoi64_repr_big A (by omega)
    obtain ⟨msg, hmsg⟩ := h1 _ hbig
    exact ⟨msg, by rw [hh, parseLoop_single, hmsg], fun h => absurd h hA⟩

theorem parse_inverted_witness :
    inInt64 3 ∧ 4 < 5 ∧
    ∃ msg, parseRangeHeader ("bytes=" ++ toString 5 ++ "-" ++ toString 4) 3 = Result.error msg ∧
      (((5 : Nat) : Int) ≤ maxInt64 →
        msg = "last-byte-pos precedes first-byte-pos in range \""
          ++ (toString 5 ++ "-" ++ toString 4) ++ "\"\n") :=
  ⟨by decide, by decide, parse_inverted 3 5 4 (by decide) (by decide)⟩

/-! ## Whole headers -/

/-- The exact interval of a well-formed and satisfiable spec lies inside the
entity; it is empty only against an empty entity. -/
theorem classify_bounds (s : List Char) (L : Int) (r : ByteRange) (h0 : 0 ≤ L)
    (h : classify s L = SpecKind.satisfiable r) :
    0 ≤ r.offset ∧ r.offset + r.length ≤ L ∧ 0 ≤ r.length ∧
      (0 < L → 0 < r.length) ∧ (L = 0 → r = ByteRange.mk 0 0) := by
  unfold classify at h
  split at h
  · rename_i p0 p1 hs
    obtain ⟨-, hm0, hm1⟩ := Split_pair s p0 p1 '-' hs
    by_cases hp0 : p0 = []
    · rw [if_pos hp0] at h
      rcases hA : Atoi64 p1 with ⟨n, e⟩
      have hnn0 := Atoi64_nonneg p1 hm1
      rw [hA] at h hnn0
      cases e with
      | some e => simp at h
      | none =>
        have hnn : 0 ≤ n := hnn0 rfl
        simp only at h
        split_ifs at h with h1 h2
        have hr : r = ByteRange.mk (L - min n L) (min n L) := by
          simpa using h.symm
        subst hr
        have hpos : 0 < n := lt_of_le_of_ne hnn (Ne.symm h2)
        refine ⟨?_, ?_, ?_, ?_, ?_⟩
        · show 0 ≤ L - min n L
          have := min_le_right n L
          omega
        · show L - min n L + min n L ≤ L
          omega
        · show 0 ≤ min n L
          exact le_min hnn h0
        · intro hL
          show 0 < min n L
          exact lt_min hpos hL
        · intro hL
          subst hL
          rw [min_eq_right hnn]
          rfl
    · rw [if_neg hp0] at h
      rcases hA : Atoi64 p0 with ⟨a, ea⟩
      rcases hB : lastBytePos p1 with ⟨b, eb⟩
      have hnn0 := Atoi64_nonneg p0 hm0
      rw [hA] at h hnn0
      rw [hB] at h
      cases ea with
      | some e => simp at h
      | none =>
        cases eb with
        | some e => simp at h
        | none =>
          have hnn : 0 ≤ a := hnn0 rfl
          simp only at h
          split_ifs at h with h1 h2
          have hr : r = ByteRange.mk a (min b (L - 1) - a + 1) := by
            simpa using h.symm
          subst hr
          have hle : a ≤ min b (L - 1) := le_min (not_lt.mp h1) (by omega)
          have hle2 : min b (L - 1) ≤ L - 1 := min_le_right _ _
          refine ⟨hnn, ?_, ?_, ?_, ?_⟩
          · show a + (min b (L - 1) - a + 1) ≤ L
            omega
          · show 0 ≤ min b (L - 1) - a + 1
            omega
          · intro _
            show 0 < min b (L - 1) - a + 1
            omega
          · intro hL
            omega
  · simp at h

/-- The specs of a header are never none: `Split` returns at least one piece. -/
theorem specsOf_ne_nil (header : String) : specsOf header ≠ [] :=
  Split_ne_nil _ _

theorem mem_filterMap_specInterval (specs : List (List Char)) (L : Int) (r : ByteRange)
    (h : r ∈ specs.filterMap (specInterval L)) :
    ∃ s ∈ specs, classify s L = SpecKind.satisfiable r := by
  obtain ⟨s, hs, hr⟩ := List.mem_filterMap.mp h
  exact ⟨s, hs, specInterval_eq_some s L r hr⟩

/-- A no-error result of the parser comes from a header with the unit, through
the loop. -/
theorem parseRangeHeader_ok (header : String) (L : Int) (rs : List ByteRange)
    (h : parseRangeHeader header L = Result.ok rs) :
    HasPrefix header.data bytesUnit = true ∧ parseLoop L (specsOf header) [] = Result.ok rs := by
  cases hp : HasPrefix header.data bytesUnit with
  | false =>
    unfold parseRangeHeader at h
    rw [if_pos hp] at h
    simp at h
  | true =>
    rw [parseRangeHeader_of_unit header L hp] at h
    exact ⟨rfl, h⟩

/-- C3: when the parser returns no error, the returned sequence is empty if
and only if the parse stopped at an unsatisfiable spec (suffix-length 0, or
first-byte-pos at or beyond the entity length) that well-formed, satisfiable
specs precede; a header all of whose specs are satisfiable never gives an
empty result, and `bytes=` is an error, not an empty success. -/
theorem parse_empty_iff_unsatisfiable (header : String) (L : Int) (rs : List ByteRange)
    (hL : inInt64 L) (h : parseRangeHeader header L = Result.ok rs) :
    (rs = [] ↔ ∃ pre s post, specsOf header = pre ++ s :: post ∧ allSatisfiable pre L ∧
        classify s L = SpecKind.unsatisfiable) ∧
    (allSatisfiable (specsOf header) L → rs ≠ []) ∧
    (∃ msg, parseRangeHeader "bytes=" L = Result.error msg) := by
  obtain ⟨hp, hloop⟩ := parseRangeHeader_ok header L rs h
  have hfull : allSatisfiable (specsOf header) L → rs ≠ [] := by
    intro hsat
    have hcases := parseLoop_ok L hL (specsOf header) [] rs hloop
    rcases hcases with ⟨-, pre, s, post, hsp, -, hun⟩ | ⟨-, hrs⟩
    · obtain ⟨r, hr⟩ := hsat s (by rw [hsp]; simp)
      rw [hun] at hr
      simp at hr
    · intro hnil
      have hlen := filterMap_allSatisfiable_length (specsOf header) L hsat
      rw [hrs] at hnil
      simp only [List.nil_append] at hnil
      rw [hnil] at hlen
      exact specsOf_ne_nil header (List.length_eq_zero.mp hlen.symm)
  refine ⟨⟨?_, ?_⟩, hfull, ?_⟩
  · intro hnil
    rcases parseLoop_ok L hL (specsOf header) [] rs hloop with ⟨-, hex⟩ | ⟨hsat, -⟩
    · exact hex
    · exact absurd hnil (hfull hsat)
  · rintro ⟨pre, s, post, hsp, hsat, hun⟩
    rw [hsp] at hloop
    by_cases hcap : pre.length ≤ rangesCap
    · rw [parseLoop_satisfiable L hL pre (s :: post) [] hsat (by simpa using hcap), parseLoop,
        (rangeBody_of_classify s L hL).2.1 hun] at hloop
      simpa using hloop.symm
    · rw [parseLoop_overflow L hL pre (s :: post) [] hsat (by simp)
        (by simp only [List.length_nil]; omega)] at hloop
      simp at hloop
  · have e : ("bytes=" : String) = "bytes=" ++ "" := by decide
    have hsp : Split ("" : String).data ',' = [[]] := by decide
    rw [e, parseRangeHeader_unit, hsp, parseLoop_single, rangeBody_invalid [] L (by decide)]
    exact ⟨_, rfl⟩

theorem parse_empty_iff_unsatisfiable_witness :
    inInt64 10 ∧ parseRangeHeader "bytes=0-5,15-,0-5" 10 = Result.ok [] ∧
    ((([] : List ByteRange) = [] ↔ ∃ pre s post,
        specsOf "bytes=0-5,15-,0-5" = pre ++ s :: post ∧ allSatisfiable pre 10 ∧
        classify s 10 = SpecKind.unsatisfiable) ∧
    (allSatisfiable (specsOf "bytes=0-5,15-,0-5") 10 → ([] : List ByteRange) ≠ []) ∧
    (∃ msg, parseRangeHeader "bytes=" 10 = Result.error msg)) :=
  ⟨by decide, by decide,
    parse_empty_iff_unsatisfiable "bytes=0-5,15-,0-5" 10 [] (by decide) (by decide)⟩

theorem allSatisfiable_of_isSome (specs : List (List Char)) (L : Int)
    (h : ∀ s ∈ specs, (specInterval L s).isSome = true) : allSatisfiable specs L := by
  intro s hs
  obtain ⟨r, hr⟩ := Option.isSome_iff_exists.mp (h s hs)
  exact ⟨r, specInterval_eq_some s L r hr⟩

/-- Within the capacity of the slice, an unsatisfiable spec after well-formed,
satisfiable ones ends the parse with the empty sequence and no error, whatever
follows it. -/
theorem parse_stops_at_unsatisfiable (header : String) (L : Int) (pre post : List (List Char))
    (s : List Char) (hL : inInt64 L) (hunit : ∃ rest : String, header = "bytes=" ++ rest)
    (hsp : specsOf header = pre ++ s :: post) (hsat : allSatisfiable pre L)
    (hcap : pre.length ≤ rangesCap) (hun : classify s L = SpecKind.unsatisfiable) :
    parseRangeHeader header L = Result.ok [] := by
  obtain ⟨rest, rfl⟩ := hunit
  rw [specsOf_unit] at hsp
  rw [parseRangeHeader_unit, hsp,
    parseLoop_satisfiable L hL pre (s :: post) [] hsat (by simpa using hcap), parseLoop,
    (rangeBody_of_classify s L hL).2.1 hun]

/-- Beyond the capacity of the slice, the parse of well-formed, satisfiable
specs ends in the run-time failure of `appendRange`, whatever follows them. -/
theorem parse_fails_beyond_capacity (header : String) (L : Int) (pre post : List (List Char))
    (hL : inInt64 L) (hunit : ∃ rest : String, header = "bytes=" ++ rest)
    (hsp : specsOf header = pre ++ post) (hsat : allSatisfiable pre L)
    (hcap : rangesCap < pre.length) :
    parseRangeHeader header L = Result.panic := by
  obtain ⟨rest, rfl⟩ := hunit
  rw [specsOf_unit] at hsp
  rw [parseRangeHeader_unit, hsp]
  exact parseLoop_overflow L hL pre post [] hsat (by simp) (by simpa using hcap)

/-- C5, at the failing input: eleven well-formed, satisfiable specs followed by
the unsatisfiable spec `-0`, against an entity of 10 bytes.  The parser does not
return the empty sequence: the eleventh `appendRange` exceeds the capacity of
`ranges` and the call ends in a run-time failure. -/
theorem parse_unsatisfiable_after_eleven :
    specsOf "bytes=0-0,0-0,0-0,0-0,0-0,0-0,0-0,0-0,0-0,0-0,0-0,-0"
      = List.replicate 11 "0-0".data ++ ["-0".data] ∧
    (∀ s ∈ List.replicate 11 "0-0".data, classify s 10 = SpecKind.satisfiable (ByteRange.mk 0 1)) ∧
    classify "-0".data 10 = SpecKind.unsatisfiable ∧
    parseRangeHeader "bytes=0-0,0-0,0-0,0-0,0-0,0-0,0-0,0-0,0-0,0-0,0-0,-0" 10 = Result.panic := by
  decide

/-- C6, as stated, fails: in `bytes=15-,5-4` against 10 bytes the spec `5-4` is
malformed, yet the parse stops at the unsatisfiable `15-` before it and returns
the empty sequence with no error. -/
theorem parse_malformed_after_unsatisfiable :
    "5-4".data ∈ specsOf "bytes=15-,5-4" ∧
    classify "5-4".data 10 = SpecKind.malformed ∧
    parseRangeHeader "bytes=15-,5-4" 10 = Result.ok [] := by
  decide

/-- C6, amended: in a header beginning with `bytes=`, a malformed spec that
only well-formed, satisfiable specs precede, at most as many as the slice has
room for, makes the parser return an error for the whole header, whatever
follows it. -/
theorem parse_malformed_spec (header : String) (L : Int) (pre post : List (List Char))
    (s : List Char) (hL : inInt64 L) (hunit : ∃ rest : String, header = "bytes=" ++ rest)
    (hsp : specsOf header = pre ++ s :: post) (hsat : allSatisfiable pre L)
    (hcap : pre.length ≤ rangesCap) (hmal : classify s L = SpecKind.malformed) :
    ∃ msg, parseRangeHeader header L = Result.error msg := by
  obtain ⟨rest, rfl⟩ := hunit
  rw [specsOf_unit] at hsp
  obtain ⟨msg, hmsg⟩ := (rangeBody_of_classify s L hL).1 hmal
  refine ⟨msg, ?_⟩
  rw [parseRangeHeader_unit, hsp,
    parseLoop_satisfiable L hL pre (s :: post) [] hsat (by simpa using hcap), parseLoop, hmsg]

theorem parse_malformed_spec_witness :
    inInt64 10 ∧ (∃ rest : String, "bytes=0-2,5-4,0-1" = "bytes=" ++ rest) ∧
    specsOf "bytes=0-2,5-4,0-1" = ["0-2".data] ++ "5-4".data :: ["0-1".data] ∧
    allSatisfiable ["0-2".data] 10 ∧ ["0-2".data].length ≤ rangesCap ∧
    classify "5-4".data 10 = SpecKind.malformed ∧
    ∃ msg, parseRangeHeader "bytes=0-2,5-4,0-1" 10 = Result.error msg :=
  have hunit : ∃ rest : String, "bytes=0-2,5-4,0-1" = "bytes=" ++ rest :=
    ⟨"0-2,5-4,0-1", by decide⟩
  have hsat : allSatisfiable ["0-2".data] 10 := allSatisfiable_of_isSome _ _ (by decide)
  ⟨by decide, hunit, by decide, hsat, by decide, by decide,
    parse_malformed_spec "bytes=0-2,5-4,0-1" 10 ["0-2".data] ["0-1".data] "5-4".data
      (by decide) hunit (by decide) hsat (by decide) (by decide)⟩

/-- C7, at the failing input: eleven well-formed, satisfiable specs followed by
the malformed spec `5-4`, against an entity of 10 bytes.  The parser does not
return an error: the eleventh `appendRange` exceeds the capacity of `ranges`
and the call ends in a run-time failure. -/
theorem parse_malformed_after_eleven :
    specsOf "bytes=0-0,0-0,0-0,0-0,0-0,0-0,0-0,0-0,0-0,0-0,0-0,5-4"
      = List.replicate 11 "0-0".data ++ ["5-4".data] ∧
    (∀ s ∈ List.replicate 11 "0-0".data, classify s 10 = SpecKind.satisfiable (ByteRange.mk 0 1)) ∧
    classify "5-4".data 10 = SpecKind.malformed ∧
    parseRangeHeader "bytes=0-0,0-0,0-0,0-0,0-0,0-0,0-0,0-0,0-0,0-0,0-0,5-4" 10 = Result.panic := by
  decide

/-- Each interval of a no-error result is the exact interval of one of the
header's specs, and the loop body computed it without wrap-around. -/
theorem parse_ok_mem (header : String) (L : Int) (rs : List ByteRange) (hL : inInt64 L)
    (h : parseRangeHeader header L = Result.ok rs) (r : ByteRange) (hr : r ∈ rs) :
    ∃ s ∈ specsOf header, classify s L = SpecKind.satisfiable r ∧
      rangeBody s L = Step.append r.offset r.length := by
  obtain ⟨-, hloop⟩ := parseRangeHeader_ok header L rs h
  rcases parseLoop_ok L hL (specsOf header) [] rs hloop with ⟨hnil, -⟩ | ⟨-, hrs⟩
  · rw [hnil] at hr
    exact absurd hr (by simp)
  · rw [hrs, List.nil_append] at hr
    obtain ⟨s, hs, hc⟩ := mem_filterMap_specInterval _ L r hr
    exact ⟨s, hs, hc, (rangeBody_of_classify s L hL).2.2 r hc⟩

/-- C9: for an entity length `0 <= L`, every interval in a no-error result has
`offset >= 0` and `offset + length <= L`; it is the interval one of the
header's specs stands for on unbounded integers (`L - N` and `N`, or `A` and
`B - A + 1` after clamping), which the loop body reproduces, so that `L - N`,
`B - A`, `B - A + 1` and `offset + length` all fit in an `int64`. -/
theorem parse_intervals_within_entity (header : String) (L : Int) (rs : List ByteRange)
    (h0 : 0 ≤ L) (hL : L ≤ maxInt64) (h : parseRangeHeader header L = Result.ok rs) :
    ∀ r ∈ rs, 0 ≤ r.offset ∧ r.offset + r.length ≤ L ∧
      (∃ s ∈ specsOf header, classify s L = SpecKind.satisfiable r ∧
        rangeBody s L = Step.append r.offset r.length) ∧
      inInt64 r.offset ∧ inInt64 (r.length - 1) ∧ inInt64 r.length ∧
      inInt64 (r.offset + r.length) := by
  have hLin : inInt64 L := by
    unfold inInt64 minInt64
    omega
  intro r hr
  obtain ⟨s, hs, hc, hb⟩ := parse_ok_mem header L rs hLin h r hr
  obtain ⟨b1, b2, b3, -, -⟩ := classify_bounds s L r h0 hc
  refine ⟨b1, b2, ⟨s, hs, hc, hb⟩, ?_, ?_, ?_, ?_⟩ <;>
    (unfold inInt64 minInt64; unfold maxInt64 at hL ⊢; omega)

theorem parse_intervals_within_entity_witness :
    (0 : Int) ≤ 10000 ∧ (10000 : Int) ≤ maxInt64 ∧
    parseRangeHeader "bytes=0-0,-1" 10000
      = Result.ok [ByteRange.mk 0 1, ByteRange.mk 9999 1] ∧
    ∀ r ∈ [ByteRange.mk 0 1, ByteRange.mk 9999 1],
      0 ≤ r.offset ∧ r.offset + r.length ≤ 10000 ∧
      (∃ s ∈ specsOf "bytes=0-0,-1", classify s 10000 = SpecKind.satisfiable r ∧
        rangeBody s 10000 = Step.append r.offset r.length) ∧
      inInt64 r.offset ∧ inInt64 (r.length - 1) ∧ inInt64 r.length ∧
      inInt64 (r.offset + r.length) :=
  ⟨by decide, by decide, by decide,
    parse_intervals_within_entity "bytes=0-0,-1" 10000 _ (by decide) (by decide) (by decide)⟩

/-- C10, as stated, fails: against an entity of length 0 the header `bytes=-5`
is answered with no error and the interval `{0, 0}`, whose length is not
positive. -/
theorem parse_suffix_of_empty_entity :
    parseRangeHeader "bytes=-5" 0 = Result.ok [ByteRange.mk 0 0] ∧
    ¬ (0 < (ByteRange.mk 0 0).length) := by
  decide

/-- C10, amended: for an entity length `L > 0` every interval in a no-error
result has `length > 0`; for `L = 0` every interval in a no-error result is
`{0, 0}`. -/
theorem parse_interval_length (header : String) (L : Int) (rs : List ByteRange)
    (h0 : 0 ≤ L) (hL : L ≤ maxInt64) (h : parseRangeHeader header L = Result.ok rs) :
    ∀ r ∈ rs, (0 < L → 0 < r.length) ∧ (L = 0 → r = ByteRange.mk 0 0) := by
  have hLin : inInt64 L := by
    unfold inInt64 minInt64
    omega
  intro r hr
  obtain ⟨s, -, hc, -⟩ := parse_ok_mem header L rs hLin h r hr
  obtain ⟨-, -, -, b4, b5⟩ := classify_bounds s L r h0 hc
  exact ⟨b4, b5⟩

theorem parse_interval_length_witness :
    (0 : Int) ≤ 10 ∧ (10 : Int) ≤ maxInt64 ∧
    parseRangeHeader "bytes=0-20,-3" 10 = Result.ok [ByteRange.mk 0 10, ByteRange.mk 7 3] ∧
    ∀ r ∈ [ByteRange.mk 0 10, ByteRange.mk 7 3],
      ((0 : Int) < 10 → 0 < r.length) ∧ ((10 : Int) = 0 → r = ByteRange.mk 0 0) :=
  ⟨by decide, by decide, by decide,
    parse_interval_length "bytes=0-20,-3" 10 _ (by decide) (by decide) (by decide)⟩

/-! ## The merger -/

theorem joinByteRanges_cons (x0 : ByteRange) (rest : List ByteRange) :
    joinByteRanges (x0 :: rest) =
      some (joinLoop rest (x0, add64 x0.offset x0.length)).1 := by
  unfold joinByteRanges
  cases rest with
  | nil => simp [joinLoop]
  | cons r rs => simp

theorem joinLoop_append (xs ys : List ByteRange) (st : ByteRange × Int) :
    joinLoop (xs ++ ys) st = joinLoop ys (joinLoop xs st) := by
  unfold joinLoop
  rw [List.foldl_append]

theorem joinLoop_cons (r : ByteRange) (rs : List ByteRange) (st : ByteRange × Int) :
    joinLoop (r :: rs) st = joinLoop rs (joinStep st r) := rfl

theorem joinLoop_nil (st : ByteRange × Int) : joinLoop [] st = st := rfl

/-- The local variable `end` always holds `totalRange.offset + totalRange.length`
as an `int64`. -/
theorem joinStep_end (st : ByteRange × Int) (r : ByteRange)
    (h : st.2 = add64 st.1.offset st.1.length) :
    (joinStep st r).2 = add64 (joinStep st r).1.offset (joinStep st r).1.length := by
  unfold joinStep
  dsimp only
  simp only [add64, sub64, wrap64] at h ⊢
  split_ifs <;> simp only [] <;> omega

theorem joinLoop_end (rs : List ByteRange) (st : ByteRange × Int)
    (h : st.2 = add64 st.1.offset st.1.length) :
    (joinLoop rs st).2 = add64 (joinLoop rs st).1.offset (joinLoop rs st).1.length := by
  induction rs generalizing st with
  | nil => exact h
  | cons r rs ih =>
    rw [joinLoop_cons]
    exact ih _ (joinStep_end st r h)

/-- C14: for every interval `r`, of any offset and length,
`joinByteRanges([r])` is `r`. -/
theorem join_single (r : ByteRange) : joinByteRanges [r] = some r := by
  rfl

/-- C18: on every non-empty sequence `joinByteRanges` returns an interval; on
the empty sequence it fails at `ranges[0]` and does not return the zero-value
interval `{0, 0}`. -/
theorem join_defined_iff_nonempty :
    (∀ ranges : List ByteRange, ranges ≠ [] → ∃ r, joinByteRanges ranges = some r) ∧
    joinByteRanges [] = none ∧
    joinByteRanges [] ≠ some (ByteRange.mk 0 0) ∧
    (∀ ranges : List ByteRange, (joinByteRanges ranges).isSome = true ↔ ranges ≠ []) := by
  have h1 : ∀ ranges : List ByteRange, ranges ≠ [] → ∃ r, joinByteRanges ranges = some r := by
    intro ranges hne
    cases ranges with
    | nil => exact absurd rfl hne
    | cons x0 rest => exact ⟨_, joinByteRanges_cons x0 rest⟩
  have h2 : joinByteRanges [] = none := rfl
  refine ⟨h1, h2, by rw [h2]; simp, ?_⟩
  intro ranges
  constructor
  · intro hs hnil
    rw [hnil, h2] at hs
    simp at hs
  · intro hne
    obtain ⟨r, hr⟩ := h1 ranges hne
    rw [hr]
    rfl

/-- C15: with the same first interval and the same positive-length intervals
after it, `[0:10, 20:10, 10:10]` is joined to `0:20` and `[0:10, 10:10, 20:10]`
to `0:30`: the result depends on the order, and it is not the union of the
inputs, which here is the single interval `0:30`. -/
theorem join_order_dependent :
    joinByteRanges [ByteRange.mk 0 10, ByteRange.mk 20 10, ByteRange.mk 10 10]
      = some (ByteRange.mk 0 20) ∧
    joinByteRanges [ByteRange.mk 0 10, ByteRange.mk 10 10, ByteRange.mk 20 10]
      = some (ByteRange.mk 0 30) ∧
    (∃ r : ByteRange, ∃ xs ys : List ByteRange, List.Perm xs ys ∧
      (∀ x ∈ r :: xs, 0 < x.length) ∧
      joinByteRanges (r :: xs) ≠ joinByteRanges (r :: ys)) := by
  refine ⟨by decide, by decide, ByteRange.mk 0 10,
    [ByteRange.mk 20 10, ByteRange.mk 10 10], [ByteRange.mk 10 10, ByteRange.mk 20 10],
    List.Perm.swap _ _ _, by decide, by decide⟩

theorem join_two (a b : ByteRange) :
    joinByteRanges [a, b] = some (joinStep (a, add64 a.offset a.length) b).1 := by
  rw [joinByteRanges_cons, joinLoop_cons, joinLoop_nil]

/-- Two touching intervals, in the arithmetic of the machine: the length of the
result is the `int64` difference of the larger end and the smaller offset. -/
theorem join_pair_machine (a b : ByteRange) (ha : typed a) (hb : typed b)
    (hal : 0 < a.length) (hbl : 0 < b.length)
    (hae : inInt64 (a.offset + a.length)) (hbe : inInt64 (b.offset + b.length))
    (h1 : a.offset ≤ b.offset + b.length) (h2 : b.offset ≤ a.offset + a.length) :
    joinByteRanges [a, b] = some (ByteRange.mk (min a.offset b.offset)
      (sub64 (max (a.offset + a.length) (b.offset + b.length)) (min a.offset b.offset))) := by
  obtain ⟨ao, al⟩ := a
  obtain ⟨bo, bl⟩ := b
  have hea : add64 ao al = ao + al := add64_eq _ _ hae
  have heb : add64 bo bl = bo + bl := add64_eq _ _ hbe
  simp only [typed, inInt64, minInt64, maxInt64] at ha hb hae hbe hal hbl h1 h2
  rw [join_two]
  simp only [joinStep]
  simp only [hea, heb]
  rcases le_total ao bo with hab | hab <;>
    rcases le_total (ao + al) (bo + bl) with hee | hee <;>
    simp only [min_eq_left, min_eq_right, max_eq_left, max_eq_right, hab, hee] <;>
    split_ifs <;>
    simp only [Option.some.injEq, ByteRange.mk.injEq, sub64, wrap64, true_and] <;>
    omega

/-- Outside the data model, with a negative offset, the covering length of two
touching intervals can exceed an `int64`: here it would be
18446744073709551614, and the join has the wrapped length -2. -/
theorem join_pair_negative_offset :
    joinByteRanges [ByteRange.mk (-9223372036854775808) 9223372036854775807,
        ByteRange.mk (-1) 9223372036854775807]
      = some (ByteRange.mk (-9223372036854775808) (-2)) ∧
    max ((-9223372036854775808 : Int) + 9223372036854775807) ((-1) + 9223372036854775807)
      - min (-9223372036854775808 : Int) (-1) = 18446744073709551614 := by
  decide

/-- A valid interval has `int64` fields and an `int64` end. -/
theorem typed_of_valid (r : ByteRange) (h : valid r) :
    typed r ∧ inInt64 (r.offset + r.length) := by
  unfold valid maxInt64 at h
  unfold typed inInt64 minInt64 maxInt64
  omega

/-- Intervals with offsets that are not negative have a covering length that
fits in an `int64`. -/
theorem covering_fits (a b : ByteRange) (ha : 0 ≤ a.offset) (hb : 0 ≤ b.offset)
    (hal : 0 < a.length) (hbl : 0 < b.length)
    (hae : inInt64 (a.offset + a.length)) (hbe : inInt64 (b.offset + b.length)) :
    inInt64 (max (a.offset + a.length) (b.offset + b.length) - min a.offset b.offset) := by
  simp only [inInt64, minInt64, maxInt64] at hae hbe ⊢
  rcases le_total a.offset b.offset with hab | hab <;>
    rcases le_total (a.offset + a.length) (b.offset + b.length) with hee | hee <;>
    simp only [min_eq_left, min_eq_right, max_eq_left, max_eq_right, hab, hee] <;>
    omega

/-- C12: two intervals of the data model (offset not negative) with positive
length and `offset + length` not overflowing, which overlap or are adjacent
(`a.offset <= b.offset + b.length` and `b.offset <= a.offset + a.length`), are
joined in either order to the covering interval
`{min(a.offset, b.offset), max(a end, b end) - min(a.offset, b.offset)}`. -/
theorem join_pair_covering (a b : ByteRange) (ha : valid a) (hb : valid b)
    (h1 : a.offset ≤ b.offset + b.length) (h2 : b.offset ≤ a.offset + a.length) :
    joinByteRanges [a, b] = some (ByteRange.mk (min a.offset b.offset)
      (max (a.offset + a.length) (b.offset + b.length) - min a.offset b.offset)) ∧
    joinByteRanges [b, a] = some (ByteRange.mk (min a.offset b.offset)
      (max (a.offset + a.length) (b.offset + b.length) - min a.offset b.offset)) := by
  obtain ⟨hta, hae⟩ := typed_of_valid a ha
  obtain ⟨htb, hbe⟩ := typed_of_valid b hb
  have hc := covering_fits a b ha.1 hb.1 ha.2.1 hb.2.1 hae hbe
  have hab := join_pair_machine a b hta htb ha.2.1 hb.2.1 hae hbe h1 h2
  have hba := join_pair_machine b a htb hta hb.2.1 ha.2.1 hbe hae h2 h1
  rw [sub64_eq _ _ hc] at hab
  rw [max_comm, min_comm, sub64_eq _ _ hc] at hba
  exact ⟨hab, hba⟩

theorem join_pair_covering_witness :
    valid (ByteRange.mk 10 10) ∧ valid (ByteRange.mk 5 10) ∧
    (ByteRange.mk 10 10).offset ≤ (ByteRange.mk 5 10).offset + (ByteRange.mk 5 10).length ∧
    (ByteRange.mk 5 10).offset ≤ (ByteRange.mk 10 10).offset + (ByteRange.mk 10 10).length ∧
    (joinByteRanges [ByteRange.mk 10 10, ByteRange.mk 5 10] = some (ByteRange.mk
      (min (ByteRange.mk 10 10).offset (ByteRange.mk 5 10).offset)
      (max ((ByteRange.mk 10 10).offset + (ByteRange.mk 10 10).length)
          ((ByteRange.mk 5 10).offset + (ByteRange.mk 5 10).length)
        - min (ByteRange.mk 10 10).offset (ByteRange.mk 5 10).offset)) ∧
    joinByteRanges [ByteRange.mk 5 10, ByteRange.mk 10 10] = some (ByteRange.mk
      (min (ByteRange.mk 10 10).offset (ByteRange.mk 5 10).offset)
      (max ((ByteRange.mk 10 10).offset + (ByteRange.mk 10 10).length)
          ((ByteRange.mk 5 10).offset + (ByteRange.mk 5 10).length)
        - min (ByteRange.mk 10 10).offset (ByteRange.mk 5 10).offset))) :=
  ⟨by decide, by decide, by decide, by decide,
    join_pair_covering (ByteRange.mk 10 10) (ByteRange.mk 5 10) (by decide) (by decide)
      (by decide) (by decide)⟩

theorem valid_end (r : ByteRange) (h : valid r) :
    add64 r.offset r.length = r.offset + r.length := by
  apply add64_eq
  unfold valid maxInt64 at h
  unfold inInt64 minInt64 maxInt64
  omega

/-- One pass through the loop body keeps the invariant. -/
theorem joinStep_inv (S : ByteRange → Prop) (x0 r : ByteRange) (st : ByteRange × Int)
    (hS : S r) (hr : valid r) (h : joinInv S x0 st) : joinInv S x0 (joinStep st r) := by
  obtain ⟨tot, e⟩ := st
  obtain ⟨t0, tlen⟩ := tot
  obtain ⟨ro, rl⟩ := r
  obtain ⟨he, hv, hx1, hx2, hcov⟩ := h
  have hre := valid_end _ hr
  simp only [valid, maxInt64] at hv hr he hx1 hx2 hcov hre
  obtain ⟨hv1, hv2, hv3⟩ := hv
  obtain ⟨hr1, hr2, hr3⟩ := hr
  subst he
  have hmax : maxInt64 = 9223372036854775807 := rfl
  have hsub : ∀ a b : Int, 0 ≤ b → b ≤ a → a ≤ 9223372036854775807 → sub64 a b = a - b := by
    intro a b h1 h2 h3
    apply sub64_eq
    unfold inInt64 minInt64 maxInt64
    omega
  unfold joinStep
  simp only [hre]
  by_cases c1 : ro < t0 ∧ ro + rl ≥ t0
  · rw [if_pos c1]
    simp only
    rw [hsub (t0 + tlen) ro hr1 (by omega) hv3]
    by_cases c2 : ro ≤ t0 + tlen ∧ ro + rl > t0 + tlen
    · rw [if_pos c2, hsub (ro + rl) ro hr1 (by omega) hr3]
      refine ⟨by simp only; omega, ⟨hr1, by simp only; omega, by simp only; omega⟩,
        by simp only; omega, by simp only; omega, ?_⟩
      intro p hp1 hp2
      exact ⟨ByteRange.mk ro rl, hS, hp1, by simpa using hp2⟩
    · rw [if_neg c2]
      refine ⟨by simp only; omega, ⟨hr1, by simp only; omega, by simp only; omega⟩,
        by simp only; omega, by simp only; omega, ?_⟩
      intro p hp1 hp2
      simp only at hp1 hp2
      by_cases hp : p < ro + rl
      · exact ⟨ByteRange.mk ro rl, hS, hp1, hp⟩
      · exact hcov p (by omega) hp2
  · rw [if_neg c1]
    simp only
    by_cases c2 : ro ≤ t0 + tlen ∧ ro + rl > t0 + tlen
    · rw [if_pos c2, hsub (ro + rl) t0 hv1 (by omega) hr3]
      refine ⟨by simp only; omega, ⟨hv1, by simp only; omega, by simp only; omega⟩,
        hx1, by simp only; omega, ?_⟩
      intro p hp1 hp2
      simp only at hp1 hp2
      by_cases hp : p < t0 + tlen
      · exact hcov p hp1 hp
      · exact ⟨ByteRange.mk ro rl, hS, by simp only; omega, hp2⟩
    · rw [if_neg c2]
      exact ⟨rfl, ⟨hv1, hv2, hv3⟩, hx1, hx2, hcov⟩

theorem joinLoop_inv (S : ByteRange → Prop) (x0 : ByteRange) (rest : List ByteRange)
    (st : ByteRange × Int) (hrest : ∀ r ∈ rest, S r ∧ valid r) (h : joinInv S x0 st) :
    joinInv S x0 (joinLoop rest st) := by
  induction rest generalizing st with
  | nil => exact h
  | cons r rs ih =>
    rw [joinLoop_cons]
    apply ih
    · intro x hx
      exact hrest x (by simp [hx])
    · exact joinStep_inv S x0 r st (hrest r (by simp)).1 (hrest r (by simp)).2 h

/-- The join of a non-empty list of valid intervals satisfies the invariant of
the loop. -/
theorem join_inv (x0 : ByteRange) (rest : List ByteRange)
    (hvalid : ∀ x ∈ x0 :: rest, valid x) :
    ∃ R, joinByteRanges (x0 :: rest) = some R ∧
      joinInv (fun x => x ∈ x0 :: rest) x0 (R, R.offset + R.length) := by
  have hv0 : valid x0 := hvalid x0 (by simp)
  have h0 : joinInv (fun x => x ∈ x0 :: rest) x0 (x0, add64 x0.offset x0.length) := by
    rw [valid_end x0 hv0]
    refine ⟨rfl, hv0, le_refl _, le_refl _, ?_⟩
    intro p hp1 hp2
    exact ⟨x0, by simp, hp1, hp2⟩
  have hinv := joinLoop_inv (fun x => x ∈ x0 :: rest) x0 rest _
    (fun r hr => ⟨by simp [hr], hvalid r (by simp [hr])⟩) h0
  refine ⟨_, joinByteRanges_cons x0 rest, ?_⟩
  have he := hinv.1
  rw [← he]
  exact hinv

/-- C19: for a non-empty list of intervals with `offset >= 0`, `length > 0` and
`offset + length` not overflowing, the join `R` exists, contains the first
interval, and every position `p` with `R.offset <= p < R.offset + R.length`
lies in one of the intervals of the list; hence `R.length > 0`, `R` begins no
earlier than some input begins and ends no later than some input ends, and its
end does not overflow. -/
theorem join_covered (x0 : ByteRange) (rest : List ByteRange)
    (hvalid : ∀ x ∈ x0 :: rest, valid x) :
    ∃ R, joinByteRanges (x0 :: rest) = some R ∧
      R.offset ≤ x0.offset ∧ x0.offset + x0.length ≤ R.offset + R.length ∧
      (∀ p : Int, R.offset ≤ p → p < R.offset + R.length →
        ∃ x ∈ x0 :: rest, x.offset ≤ p ∧ p < x.offset + x.length) ∧
      0 < R.length ∧
      (∃ x ∈ x0 :: rest, x.offset ≤ R.offset) ∧
      (∃ y ∈ x0 :: rest, R.offset + R.length ≤ y.offset + y.length) ∧
      0 ≤ R.offset ∧ R.offset + R.length ≤ maxInt64 := by
  obtain ⟨R, hR, -, hv, hx1, hx2, hcov⟩ := join_inv x0 rest hvalid
  simp only at hx1 hx2 hcov hv
  have hpos : 0 < R.length := hv.2.1
  refine ⟨R, hR, hx1, hx2, hcov, hpos, ?_, ?_, hv.1, hv.2.2⟩
  · obtain ⟨x, hx, h1, -⟩ := hcov R.offset (le_refl _) (by omega)
    exact ⟨x, hx, h1⟩
  · obtain ⟨y, hy, -, h2⟩ := hcov (R.offset + R.length - 1) (by omega) (by omega)
    exact ⟨y, hy, by omega⟩

theorem join_covered_witness :
    (∀ x ∈ ByteRange.mk 5 10 :: [ByteRange.mk 15 1, ByteRange.mk 4 1], valid x) ∧
    ∃ R, joinByteRanges (ByteRange.mk 5 10 :: [ByteRange.mk 15 1, ByteRange.mk 4 1]) = some R ∧
      R.offset ≤ (ByteRange.mk 5 10).offset ∧
      (ByteRange.mk 5 10).offset + (ByteRange.mk 5 10).length ≤ R.offset + R.length ∧
      (∀ p : Int, R.offset ≤ p → p < R.offset + R.length →
        ∃ x ∈ ByteRange.mk 5 10 :: [ByteRange.mk 15 1, ByteRange.mk 4 1],
          x.offset ≤ p ∧ p < x.offset + x.length) ∧
      0 < R.length ∧
      (∃ x ∈ ByteRange.mk 5 10 :: [ByteRange.mk 15 1, ByteRange.mk 4 1], x.offset ≤ R.offset) ∧
      (∃ y ∈ ByteRange.mk 5 10 :: [ByteRange.mk 15 1, ByteRange.mk 4 1],
        R.offset + R.length ≤ y.offset + y.length) ∧
      0 ≤ R.offset ∧ R.offset + R.length ≤ maxInt64 :=
  ⟨by decide, join_covered (ByteRange.mk 5 10) [ByteRange.mk 15 1, ByteRange.mk 4 1] (by decide)⟩

/-- C13, as stated, fails when the joined interval has a negative length:
`[10:-5]` joins to `10:-5`, the positive-length `4:3` ends at 7, before offset
10, and yet `[10:-5, 4:3]` joins to `10:-3`.  It fails in the same way for
the positive-length list `[9223372036854775807:11, 5:9223372036854775802]`,
whose first end overflows and whose join has a negative length. -/
theorem join_disjoint_not_dropped :
    joinByteRanges [ByteRange.mk 10 (-5)] = some (ByteRange.mk 10 (-5)) ∧
    (0 : Int) < (ByteRange.mk 4 3).length ∧
    (ByteRange.mk 4 3).offset + (ByteRange.mk 4 3).length < (ByteRange.mk 10 (-5)).offset ∧
    joinByteRanges ([ByteRange.mk 10 (-5)] ++ [ByteRange.mk 4 3]) = some (ByteRange.mk 10 (-3)) ∧
    joinByteRanges [ByteRange.mk 9223372036854775807 11, ByteRange.mk 5 9223372036854775802]
      = some (ByteRange.mk 5 (-9223372036854775803)) ∧
    (0 : Int) < (ByteRange.mk 3 10).length ∧
    (ByteRange.mk 3 10).offset > (ByteRange.mk 5 (-9223372036854775803)).offset
      + (ByteRange.mk 5 (-9223372036854775803)).length ∧
    joinByteRanges ([ByteRange.mk 9223372036854775807 11, ByteRange.mk 5 9223372036854775802]
        ++ [ByteRange.mk 3 10])
      = some (ByteRange.mk 3 (-9223372036854775801)) := by
  decide

/-- C13, amended: when the join `acc` of a non-empty list has a length that is
not negative and an end that does not overflow, a positive-length interval `r`
that ends before `acc` begins or begins after `acc` ends is dropped:
the join of the list with `r` appended is `acc`. -/
theorem join_drops_disjoint (xs : List ByteRange) (acc r : ByteRange)
    (hacc : joinByteRanges xs = some acc) (hta : typed acc) (hlen : 0 ≤ acc.length)
    (hend : inInt64 (acc.offset + acc.length)) (hr : typed r) (hrl : 0 < r.length)
    (hdis : r.offset + r.length < acc.offset ∨ r.offset > acc.offset + acc.length) :
    joinByteRanges (xs ++ [r]) = some acc := by
  cases xs with
  | nil => simp [joinByteRanges] at hacc
  | cons x0 rest =>
    rw [joinByteRanges_cons] at hacc
    have hacc1 : (joinLoop rest (x0, add64 x0.offset x0.length)).1 = acc := Option.some.inj hacc
    have hinv := joinLoop_end rest (x0, add64 x0.offset x0.length) rfl
    rw [List.cons_append, joinByteRanges_cons, joinLoop_append, joinLoop_cons, joinLoop_nil]
    generalize joinLoop rest (x0, add64 x0.offset x0.length) = st at hacc1 hinv
    obtain ⟨tot, e⟩ := st
    simp only at hacc1 hinv
    subst hacc1
    rw [add64_eq _ _ hend] at hinv
    subst hinv
    obtain ⟨t0, tlen⟩ := tot
    obtain ⟨ro, rl⟩ := r
    simp only [typed, inInt64, minInt64, maxInt64] at hta hend hr hrl hlen hdis
    congr 1
    have hstep : joinStep (ByteRange.mk t0 tlen, t0 + tlen) (ByteRange.mk ro rl)
        = (ByteRange.mk t0 tlen, t0 + tlen) := by
      unfold joinStep
      simp only [add64, wrap64]
      rw [if_neg (by omega), if_neg (by omega)]
    rw [hstep]

theorem join_drops_disjoint_witness :
    joinByteRanges [ByteRange.mk 0 10] = some (ByteRange.mk 0 10) ∧
    typed (ByteRange.mk 0 10) ∧ 0 ≤ (ByteRange.mk 0 10).length ∧
    inInt64 ((ByteRange.mk 0 10).offset + (ByteRange.mk 0 10).length) ∧
    typed (ByteRange.mk 11 10) ∧ 0 < (ByteRange.mk 11 10).length ∧
    ((ByteRange.mk 11 10).offset + (ByteRange.mk 11 10).length < (ByteRange.mk 0 10).offset ∨
      (ByteRange.mk 11 10).offset > (ByteRange.mk 0 10).offset + (ByteRange.mk 0 10).length) ∧
    joinByteRanges ([ByteRange.mk 0 10] ++ [ByteRange.mk 11 10]) = some (ByteRange.mk 0 10) :=
  ⟨by decide, by decide, by decide, by decide, by decide, by decide, by decide,
    join_drops_disjoint [ByteRange.mk 0 10] (ByteRange.mk 0 10) (ByteRange.mk 11 10)
      (by decide) (by decide) (by decide) (by decide) (by decide) (by decide) (by decide)⟩

/-- The join of valid intervals meets what the dropping of a disjoint interval
asks of it. -/
theorem join_valid_acc (x0 : ByteRange) (rest : List ByteRange)
    (hvalid : ∀ x ∈ x0 :: rest, valid x) :
    ∃ acc, joinByteRanges (x0 :: rest) = some acc ∧ typed acc ∧ 0 ≤ acc.length ∧
      inInt64 (acc.offset + acc.length) := by
  obtain ⟨R, h1, -, hv, -, -, -⟩ := join_inv x0 rest hvalid
  obtain ⟨h8, h5, h9⟩ := hv
  simp only at h8 h5 h9
  refine ⟨R, h1, ?_, le_of_lt h5, ?_⟩
  · unfold typed inInt64 minInt64
    unfold maxInt64 at h9 ⊢
    omega
  · unfold inInt64 minInt64
    unfold maxInt64 at h9 ⊢
    omega

theorem le_largestEnd (m : Int) (rs : List ByteRange) : m ≤ largestEnd m rs := by
  induction rs generalizing m with
  | nil => exact le_refl _
  | cons r rest ih =>
    simp only [largestEnd]
    exact le_trans (le_max_left _ _) (ih _)

theorem end_le_largestEnd (m : Int) (rs : List ByteRange) (x : ByteRange) (hx : x ∈ rs) :
    x.offset + x.length ≤ largestEnd m rs := by
  induction rs generalizing m with
  | nil => exact absurd hx (by simp)
  | cons r rest ih =>
    simp only [largestEnd]
    rcases List.mem_cons.mp hx with e | e
    · rw [e]
      exact le_trans (le_max_right _ _) (le_largestEnd _ rest)
    · exact ih _ e

/-- On intervals that begin no earlier than the first one and are chained to
the ends before them, the loop keeps the first offset and moves `end` to the
largest end. -/
theorem joinLoop_chained (o : Int) (rest : List ByteRange) (m : Int) (hm : inInt64 m)
    (hrest : ∀ r ∈ rest, o ≤ r.offset ∧ inInt64 (r.offset + r.length)) (hch : chained m rest) :
    joinLoop rest (ByteRange.mk o (sub64 m o), m) =
      (ByteRange.mk o (sub64 (largestEnd m rest) o), largestEnd m rest) := by
  induction rest generalizing m with
  | nil => rfl
  | cons r rs ih =>
    obtain ⟨hro, hre⟩ := hrest r (by simp)
    have hrs : ∀ x ∈ rs, o ≤ x.offset ∧ inInt64 (x.offset + x.length) :=
      fun x hx => hrest x (by simp [hx])
    obtain ⟨hc1, hc2⟩ := hch
    have hadd : add64 r.offset r.length = r.offset + r.length := add64_eq _ _ hre
    rw [joinLoop_cons]
    simp only [largestEnd]
    have hstep : joinStep (ByteRange.mk o (sub64 m o), m) r =
        (ByteRange.mk o (sub64 (max m (r.offset + r.length)) o),
          max m (r.offset + r.length)) := by
      have hno : ¬ (r.offset < o ∧ r.offset + r.length ≥ o) := fun h => by omega
      simp only [joinStep]
      simp only [hadd]
      rw [if_neg hno]
      by_cases hgt : r.offset + r.length > m
      · rw [if_pos ⟨hc1, hgt⟩, max_eq_right (le_of_lt hgt)]
      · rw [if_neg (fun h => hgt h.2), max_eq_left (not_lt.mp hgt)]
    rw [hstep]
    apply ih _ _ hrs hc2
    rcases le_total m (r.offset + r.length) with h | h
    · rw [max_eq_right h]
      exact hre
    · rw [max_eq_left h]
      exact hm

/-- A sorted, chained list, in the arithmetic of the machine: the join keeps
the first offset, and its length is the `int64` difference of the largest end
and that offset. -/
theorem join_sorted_machine (x0 : ByteRange) (rest : List ByteRange)
    (htyped : ∀ x ∈ x0 :: rest, typed x)
    (hend : ∀ x ∈ x0 :: rest, inInt64 (x.offset + x.length))
    (hsorted : (x0 :: rest).Pairwise (fun a b => a.offset ≤ b.offset))
    (hch : chained (x0.offset + x0.length) rest) :
    joinByteRanges (x0 :: rest) = some (ByteRange.mk x0.offset
      (sub64 (largestEnd (x0.offset + x0.length) rest) x0.offset)) := by
  obtain ⟨-, ht0l⟩ := htyped x0 (by simp)
  have he0 := hend x0 (by simp)
  have hlen : sub64 (x0.offset + x0.length) x0.offset = x0.length := by
    unfold sub64
    rw [show x0.offset + x0.length - x0.offset = x0.length by omega]
    exact wrap64_of_inInt64 _ ht0l
  have hx0 : x0 = ByteRange.mk x0.offset (sub64 (x0.offset + x0.length) x0.offset) := by
    rw [hlen]
  have hfirst := (List.pairwise_cons.mp hsorted).1
  rw [joinByteRanges_cons, add64_eq _ _ he0]
  have hloop := joinLoop_chained x0.offset rest (x0.offset + x0.length) he0
    (fun r hr => ⟨hfirst r hr, hend r (by simp [hr])⟩) hch
  rw [← hx0] at hloop
  rw [hloop]

/-- Outside the data model, with a negative first offset, the length of the
union of a sorted, chained list can exceed an `int64`: here it would be
18446744073709551613, and the join has the wrapped length -3. -/
theorem join_sorted_negative_offset :
    joinByteRanges [ByteRange.mk (-9223372036854775808) 9223372036854775807,
        ByteRange.mk (-2) 9223372036854775807]
      = some (ByteRange.mk (-9223372036854775808) (-3)) ∧
    largestEnd ((-9223372036854775808) + 9223372036854775807)
        [ByteRange.mk (-2) 9223372036854775807] - (-9223372036854775808)
      = 18446744073709551613 := by
  decide

theorem largestEnd_le (m bound : Int) (rs : List ByteRange) (hm : m ≤ bound)
    (h : ∀ x ∈ rs, x.offset + x.length ≤ bound) : largestEnd m rs ≤ bound := by
  induction rs generalizing m with
  | nil => exact hm
  | cons r rest ih =>
    simp only [largestEnd]
    exact ih _ (max_le hm (h r (by simp))) (fun x hx => h x (by simp [hx]))

/-- C20: for a non-empty list of intervals of the data model (offset not
negative) with positive length and `offset + length` not overflowing, sorted by
non-decreasing offset, each beginning at or before the largest end of the
intervals before it, the join is exactly the union of the inputs: the offset of
the first interval, and the largest end minus that offset, between which every
interval of the list lies. -/
theorem join_sorted_union (x0 : ByteRange) (rest : List ByteRange)
    (hvalid : ∀ x ∈ x0 :: rest, valid x)
    (hsorted : (x0 :: rest).Pairwise (fun a b => a.offset ≤ b.offset))
    (hch : chained (x0.offset + x0.length) rest) :
    joinByteRanges (x0 :: rest) = some (ByteRange.mk x0.offset
      (largestEnd (x0.offset + x0.length) rest - x0.offset)) ∧
    ∀ x ∈ x0 :: rest, x0.offset ≤ x.offset ∧
      x.offset + x.length ≤ largestEnd (x0.offset + x0.length) rest := by
  have htyped : ∀ x ∈ x0 :: rest, typed x := fun x hx => (typed_of_valid x (hvalid x hx)).1
  have hend : ∀ x ∈ x0 :: rest, inInt64 (x.offset + x.length) :=
    fun x hx => (typed_of_valid x (hvalid x hx)).2
  have hv0 := hvalid x0 (by simp)
  have hle : largestEnd (x0.offset + x0.length) rest ≤ maxInt64 :=
    largestEnd_le _ _ rest hv0.2.2 (fun x hx => (hvalid x (by simp [hx])).2.2)
  have hge := le_largestEnd (x0.offset + x0.length) rest
  have hfit : inInt64 (largestEnd (x0.offset + x0.length) rest - x0.offset) := by
    have h1 := hv0.1
    have h2 := hv0.2.1
    unfold inInt64 minInt64
    unfold maxInt64 at hle ⊢
    omega
  constructor
  · rw [join_sorted_machine x0 rest htyped hend hsorted hch, sub64_eq _ _ hfit]
  · intro x hx
    rcases List.mem_cons.mp hx with e | e
    · rw [e]
      exact ⟨le_refl _, hge⟩
    · exact ⟨(List.pairwise_cons.mp hsorted).1 x e, end_le_largestEnd _ rest x e⟩

theorem join_sorted_union_witness :
    (∀ x ∈ ByteRange.mk 0 10 :: [ByteRange.mk 5 10, ByteRange.mk 15 5], valid x) ∧
    (ByteRange.mk 0 10 :: [ByteRange.mk 5 10, ByteRange.mk 15 5]).Pairwise
      (fun a b => a.offset ≤ b.offset) ∧
    chained ((ByteRange.mk 0 10).offset + (ByteRange.mk 0 10).length)
      [ByteRange.mk 5 10, ByteRange.mk 15 5] ∧
    (joinByteRanges (ByteRange.mk 0 10 :: [ByteRange.mk 5 10, ByteRange.mk 15 5])
      = some (ByteRange.mk (ByteRange.mk 0 10).offset
        (largestEnd ((ByteRange.mk 0 10).offset + (ByteRange.mk 0 10).length)
          [ByteRange.mk 5 10, ByteRange.mk 15 5] - (ByteRange.mk 0 10).offset)) ∧
    ∀ x ∈ ByteRange.mk 0 10 :: [ByteRange.mk 5 10, ByteRange.mk 15 5],
      (ByteRange.mk 0 10).offset ≤ x.offset ∧
      x.offset + x.length ≤ largestEnd ((ByteRange.mk 0 10).offset + (ByteRange.mk 0 10).length)
        [ByteRange.mk 5 10, ByteRange.mk 15 5]) :=
  ⟨by decide, by decide, by decide,
    join_sorted_union (ByteRange.mk 0 10) [ByteRange.mk 5 10, ByteRange.mk 15 5]
      (by decide) (by decide) (by decide)⟩

/-! ## Open-ended ranges and the empty entity -/

/-- The header `bytes=A-` holds the one spec `A-`, whose parts are `A` and the
empty string. -/
theorem openEnded_header (A : Nat) (L : Int) :
    parseRangeHeader ("bytes=" ++ toString A ++ "-") L =
      parseLoop L [(toString A).data ++ ['-']] [] ∧
    Split ((toString A).data ++ ['-']) '-' = [(toString A).data, []] := by
  constructor
  · have e : "bytes=" ++ toString A ++ "-" = "bytes=" ++ (toString A ++ "-") := by
      simp [String.append_assoc]
    have hd : (toString A ++ "-").data = (toString A).data ++ ['-'] := by
      simp
    rw [e, parseRangeHeader_unit, hd, Split_of_not_mem]
    intro hm
    rcases List.mem_append.mp hm with h | h
    · exact comma_not_mem_repr A h
    · exact absurd h (by decide)
  · rw [Split_append_sep _ _ _ (dash_not_mem_repr A)]
    rfl

theorem data_maxInt64 : "9223372036854775807".data = (toString 9223372036854775807).data := by
  decide

theorem rangeBody_firstBytePos (s p0 p1 : List Char) (L : Int)
    (hs : Split s '-' = [p0, p1]) (hp0 : p0 ≠ []) (e : OsError) (he : (Atoi64 p0).2 = some e) :
    rangeBody s L =
      Step.fail ("Unable to parse first-byte-pos in range \"" ++ String.mk s ++ "\"\n") := by
  have hlen : p0.length ≠ 0 := fun h => hp0 (List.length_eq_zero.mp h)
  unfold rangeBody
  simp only [hs]
  simp only [List.getD_cons_zero, List.length_cons, List.length_nil, if_neg hlen]
  simp [he]

/-- C16: `bytes=A-` is answered like `bytes=A-9223372036854775807`: with the
same result whenever `A` fits in an `int64`, and for larger `A` with the error
of the unparseable first-byte-pos in both cases (the two error texts quote
their own range string), so that the tests of the repository see no
difference for any `A`; when `A < L` the result is the single interval
`{A, L - A}`. -/
theorem parse_open_ended (L : Int) (A : Nat) (hL : inInt64 L) :
    observed (parseRangeHeader ("bytes=" ++ toString A ++ "-") L) =
      observed (parseRangeHeader ("bytes=" ++ toString A ++ "-" ++ "9223372036854775807") L) ∧
    ((A : Int) ≤ maxInt64 →
      parseRangeHeader ("bytes=" ++ toString A ++ "-") L =
        parseRangeHeader ("bytes=" ++ toString A ++ "-" ++ "9223372036854775807") L) ∧
    (maxInt64 < (A : Int) →
      parseRangeHeader ("bytes=" ++ toString A ++ "-") L =
        Result.error ("Unable to parse first-byte-pos in range \""
          ++ (toString A ++ "-") ++ "\"\n") ∧
      parseRangeHeader ("bytes=" ++ toString A ++ "-" ++ "9223372036854775807") L =
        Result.error ("Unable to parse first-byte-pos in range \""
          ++ (toString A ++ "-" ++ "9223372036854775807") ++ "\"\n")) ∧
    ((A : Int) < L →
      parseRangeHeader ("bytes=" ++ toString A ++ "-") L =
        Result.ok [ByteRange.mk A (L - A)]) := by
  have hM : ("9223372036854775807" : String) = toString (9223372036854775807 : Nat) :=
    String.ext data_maxInt64
  rw [hM]
  obtain ⟨hh1, hs1⟩ := openEnded_header A L
  obtain ⟨hh2, hs2⟩ := startEnd_header A 9223372036854775807 L
  have hne := (repr_spec A).2.1
  have hlast1 : lastBytePos [] = (maxInt64, none) := rfl
  have hlast2 : lastBytePos (toString (9223372036854775807 : Nat)).data = (maxInt64, none) := by
    unfold lastBytePos
    rw [if_neg (repr_spec _).2.1, Atoi64_repr _ (by decide)]
    rfl
  by_cases hA : (A : Int) ≤ maxInt64
  · obtain ⟨-, -, -, a4, a5⟩ := rangeBody_startEnd _ _ _ L hL hs1 hne
    obtain ⟨-, -, -, b4, b5⟩ := rangeBody_startEnd _ _ _ L hL hs2 hne
    rw [Atoi64_repr A hA, hlast1] at a4 a5
    rw [Atoi64_repr A hA, hlast2] at b4 b5
    have hLmax : L ≤ maxInt64 := hL.2
    by_cases hlt : (A : Int) < L
    · obtain ⟨-, ha⟩ := a5 rfl rfl hA hlt
      obtain ⟨-, hb⟩ := b5 rfl rfl hA hlt
      simp only at ha hb
      have hmin : min maxInt64 (L - 1) - (A : Int) + 1 = L - A := by
        rw [min_eq_right (by omega)]
        omega
      rw [hmin] at ha hb
      have r1 : parseRangeHeader ("bytes=" ++ toString A ++ "-") L
          = Result.ok [ByteRange.mk A (L - A)] := by
        rw [hh1, parseLoop_single, ha]
      have r2 : parseRangeHeader
          ("bytes=" ++ toString A ++ "-" ++ toString (9223372036854775807 : Nat)) L
          = Result.ok [ByteRange.mk A (L - A)] := by
        rw [hh2, parseLoop_single, hb]
      rw [r1, r2]
      exact ⟨rfl, fun _ => rfl, fun h => absurd hA (not_le.mpr h), fun _ => rfl⟩
    · have ha := a4 rfl rfl hA (not_lt.mp hlt)
      have hb := b4 rfl rfl hA (not_lt.mp hlt)
      have r1 : parseRangeHeader ("bytes=" ++ toString A ++ "-") L = Result.ok [] := by
        rw [hh1, parseLoop_single, ha]
      have r2 : parseRangeHeader
          ("bytes=" ++ toString A ++ "-" ++ toString (9223372036854775807 : Nat)) L
          = Result.ok [] := by
        rw [hh2, parseLoop_single, hb]
      rw [r1, r2]
      exact ⟨rfl, fun _ => rfl, fun h => absurd hA (not_le.mpr h), fun h => absurd h hlt⟩
  · have hbig := Atoi64_repr_big A (by omega)
    have ha := rangeBody_firstBytePos _ _ _ L hs1 hne _ hbig
    have hb := rangeBody_firstBytePos _ _ _ L hs2 hne _ hbig
    have e1 : String.mk ((toString A).data ++ ['-']) = toString A ++ "-" := by
      apply String.ext
      simp
    have e2 : String.mk ((toString A).data ++ '-' :: (toString (9223372036854775807 : Nat)).data)
        = toString A ++ "-" ++ toString (9223372036854775807 : Nat) := by
      apply String.ext
      simp
    rw [e1] at ha
    rw [e2] at hb
    have r1 := hh1
    rw [parseLoop_single, ha] at r1
    have r2 := hh2
    rw [parseLoop_single, hb] at r2
    simp only at r1 r2
    rw [r1, r2]
    refine ⟨rfl, fun h => absurd h hA, fun _ => ⟨rfl, rfl⟩, fun h => ?_⟩
    have := hL.2
    omega

theorem parse_open_ended_witness :
    inInt64 10000 ∧
    (observed (parseRangeHeader ("bytes=" ++ toString 9500 ++ "-") 10000) =
      observed (parseRangeHeader ("bytes=" ++ toString 9500 ++ "-" ++ "9223372036854775807")
        10000) ∧
    (((9500 : Nat) : Int) ≤ maxInt64 →
      parseRangeHeader ("bytes=" ++ toString 9500 ++ "-") 10000 =
        parseRangeHeader ("bytes=" ++ toString 9500 ++ "-" ++ "9223372036854775807") 10000) ∧
    (maxInt64 < ((9500 : Nat) : Int) →
      parseRangeHeader ("bytes=" ++ toString 9500 ++ "-") 10000 =
        Result.error ("Unable to parse first-byte-pos in range \""
          ++ (toString 9500 ++ "-") ++ "\"\n") ∧
      parseRangeHeader ("bytes=" ++ toString 9500 ++ "-" ++ "9223372036854775807") 10000 =
        Result.error ("Unable to parse first-byte-pos in range \""
          ++ (toString 9500 ++ "-" ++ "9223372036854775807") ++ "\"\n")) ∧
    (((9500 : Nat) : Int) < 10000 →
      parseRangeHeader ("bytes=" ++ toString 9500 ++ "-") 10000 =
        Result.ok [ByteRange.mk (9500 : Nat) (10000 - (9500 : Nat))])) :=
  ⟨by decide, parse_open_ended 10000 9500 (by decide)⟩

/-- Against an empty entity only the suffix form with a non-zero suffix-length
is satisfiable. -/
theorem classify_satisfiable_zero (s : List Char) (r : ByteRange)
    (h : classify s 0 = SpecKind.satisfiable r) :
    ∃ last, Split s '-' = [[], last] ∧ (Atoi64 last).2 = none ∧ 0 < (Atoi64 last).1 := by
  unfold classify at h
  split at h
  · rename_i p0 p1 hs
    obtain ⟨-, hm0, hm1⟩ := Split_pair s p0 p1 '-' hs
    by_cases hp0 : p0 = []
    · rw [if_pos hp0] at h
      subst hp0
      refine ⟨p1, hs, ?_⟩
      rcases hA : Atoi64 p1 with ⟨n, e⟩
      rw [hA] at h
      cases e with
      | some e => simp at h
      | none =>
        simp only at h
        split_ifs at h with h1 h2
        exact ⟨rfl, by omega⟩
    · rw [if_neg hp0] at h
      rcases hA : Atoi64 p0 with ⟨a, ea⟩
      rcases hB : lastBytePos p1 with ⟨b, eb⟩
      have hnn0 := Atoi64_nonneg p0 hm0
      rw [hA] at h hnn0
      rw [hB] at h
      cases ea with
      | some e => simp at h
      | none =>
        cases eb with
        | some e => simp at h
        | none =>
          have hnn : 0 ≤ a := hnn0 rfl
          simp only at h
          split_ifs at h
  · simp at h

/-- C17, as stated, fails: against an entity of length 0 the header
`bytes=-1,-7` is answered with no error and two intervals, not with the empty
sequence. -/
theorem parse_suffixes_of_empty_entity :
    parseRangeHeader "bytes=-1,-7" 0 = Result.ok [ByteRange.mk 0 0, ByteRange.mk 0 0] ∧
    [ByteRange.mk 0 0, ByteRange.mk 0 0] ≠ [] := by
  decide

/-- C17, amended: against an entity of length 0 no byte is ever selected: every
interval of a no-error result is `{0, 0}`, and the result is not empty only
when every spec of the header is a suffix spec `-N` with `N > 0`. -/
theorem parse_empty_entity (header : String) (rs : List ByteRange)
    (h : parseRangeHeader header 0 = Result.ok rs) :
    (∀ r ∈ rs, r = ByteRange.mk 0 0) ∧
    (rs ≠ [] → ∀ s ∈ specsOf header,
      ∃ last, Split s '-' = [[], last] ∧ (Atoi64 last).2 = none ∧ 0 < (Atoi64 last).1) := by
  have hL : inInt64 0 := by decide
  constructor
  · intro r hr
    obtain ⟨s, -, hc, -⟩ := parse_ok_mem header 0 rs hL h r hr
    exact (classify_bounds s 0 r (le_refl _) hc).2.2.2.2 rfl
  · intro hne s hs
    obtain ⟨-, hloop⟩ := parseRangeHeader_ok header 0 rs h
    rcases parseLoop_ok 0 hL (specsOf header) [] rs hloop with ⟨hnil, -⟩ | ⟨hsat, -⟩
    · exact absurd hnil hne
    · obtain ⟨r, hr⟩ := hsat s hs
      exact classify_satisfiable_zero s r hr

theorem parse_empty_entity_witness :
    parseRangeHeader "bytes=-5" 0 = Result.ok [ByteRange.mk 0 0] ∧
    ((∀ r ∈ [ByteRange.mk 0 0], r = ByteRange.mk 0 0) ∧
    ([ByteRange.mk 0 0] ≠ [] → ∀ s ∈ specsOf "bytes=-5",
      ∃ last, Split s '-' = [[], last] ∧ (Atoi64 last).2 = none ∧ 0 < (Atoi64 last).1)) :=
  ⟨by decide, parse_empty_entity "bytes=-5" [ByteRange.mk 0 0] (by decide)⟩

/-! ## Headers with several satisfiable specs -/

theorem digit_of_digitVal (d : Char) (v : Nat) (h : digitVal d = some v) (hv : v < 10) :
    48 ≤ d.toNat ∧ d.toNat ≤ 57 := by
  have h0 : ('0' : Char).toNat = 48 := rfl
  have h9 : ('9' : Char).toNat = 57 := rfl
  unfold digitVal at h
  split_ifs at h with c1 c2 c3
  · rw [char_le_iff, char_le_iff, h0, h9] at c1
    exact c1
  · have := Option.some.inj h
    omega
  · have := Option.some.inj h
    omega

/-- The digit loop ends without an error only on decimal digits, and with the
range error only at the largest `uint64`. -/
theorem Btoui64Loop_result (ds : List Char) (n : Nat) :
    ((Btoui64Loop 10 ds n).2 = none → allDigits ds) ∧
    ((Btoui64Loop 10 ds n).2 = some OsError.ERANGE →
      (Btoui64Loop 10 ds n).1 = 18446744073709551615) := by
  induction ds generalizing n with
  | nil =>
    constructor
    · intro _ c hc
      exact absurd hc (by simp)
    · intro h
      simp [Btoui64Loop] at h
  | cons d rest ih =>
    simp only [Btoui64Loop]
    cases hd : digitVal d with
    | none => simp
    | some v =>
      simp only
      split_ifs with c1 c2 c3
      · simp
      · simp
      · simp
      · obtain ⟨i1, i2⟩ := ih ((n * 10 % 18446744073709551616 + v) % 18446744073709551616)
        refine ⟨fun h => ?_, i2⟩
        intro c hc
        rcases List.mem_cons.mp hc with e | e
        · rw [e]
          exact digit_of_digitVal d v hd (by omega)
        · exact i1 h c e

theorem Btoui64_result (s : List Char) :
    ((Btoui64 s 10).2 = none → allDigits s) ∧
    ((Btoui64 s 10).2 = some OsError.ERANGE → (Btoui64 s 10).1 = 18446744073709551615) := by
  unfold Btoui64
  split_ifs with h
  · simp
  · exact Btoui64Loop_result s 0

/-- A string that `Atoi64` accepts holds a sign or a digit first and digits
after it. -/
theorem Atoi64_ok_chars (s : List Char) (h : (Atoi64 s).2 = none) :
    ∀ c ∈ s, c = '+' ∨ c = '-' ∨ (48 ≤ c.toNat ∧ c.toNat ≤ 57) := by
  have key : ∀ t : List Char, ∀ sg : Bool,
      (let r := Btoui64 t 10
       if r.2 ≠ none ∧ r.2 ≠ some OsError.ERANGE then ((0 : Int), r.2)
       else if sg = false ∧ 9223372036854775808 ≤ r.1 then
         (9223372036854775807, some OsError.ERANGE)
       else if sg = true ∧ 9223372036854775808 < r.1 then
         (-9223372036854775808, some OsError.ERANGE)
       else
         let n := wrap64 (r.1 : Int)
         (if sg then wrap64 (-n) else n, none)).2 = none → allDigits t := by
    intro t sg hk
    obtain ⟨k1, k2⟩ := Btoui64_result t
    dsimp only at hk
    cases he : (Btoui64 t 10).2 with
    | none => exact k1 he
    | some e =>
      exfalso
      cases e with
      | EINVAL =>
        rw [if_pos (by rw [he]; simp)] at hk
        rw [he] at hk
        simp at hk
      | ERANGE =>
        have hv := k2 he
        rw [if_neg (by rw [he]; simp)] at hk
        cases sg with
        | false =>
          rw [if_pos ⟨rfl, by rw [hv]; decide⟩] at hk
          simp at hk
        | true =>
          rw [if_neg (by simp), if_pos ⟨rfl, by rw [hv]; decide⟩] at hk
          simp at hk
  have hsg : ∃ sg t, (match s with
      | '+' :: t => (false, t)
      | '-' :: t => (true, t)
      | _ => (false, s)) = (sg, t) ∧ ∀ c ∈ s, c = '+' ∨ c = '-' ∨ c ∈ t := by
    split
    · rename_i t
      refine ⟨false, t, rfl, fun c hc => ?_⟩
      rcases List.mem_cons.mp hc with e | e
      · exact Or.inl e
      · exact Or.inr (Or.inr e)
    · rename_i t
      refine ⟨true, t, rfl, fun c hc => ?_⟩
      rcases List.mem_cons.mp hc with e | e
      · exact Or.inr (Or.inl e)
      · exact Or.inr (Or.inr e)
    · exact ⟨false, s, rfl, fun c hc => Or.inr (Or.inr hc)⟩
  obtain ⟨sg, t, hm, hmem⟩ := hsg
  unfold Atoi64 Btoi64 at h
  by_cases h0 : s.length = 0
  · rw [if_pos h0] at h
    simp at h
  · rw [if_neg h0] at h
    dsimp only at h
    rw [hm] at h
    have hd := key t sg h
    intro c hc
    rcases hmem c hc with e | e | e
    · exact Or.inl e
    · exact Or.inr (Or.inl e)
    · exact Or.inr (Or.inr (hd c e))

theorem Atoi64_ok_no_comma (s : List Char) (h : (Atoi64 s).2 = none) : ',' ∉ s := by
  intro hm
  rcases Atoi64_ok_chars s h _ hm with e | e | e
  · exact absurd e (by decide)
  · exact absurd e (by decide)
  · exact absurd e (by decide)

/-- A well-formed, satisfiable spec holds no comma. -/
theorem satisfiable_no_comma (s : List Char) (L : Int) (r : ByteRange)
    (h : classify s L = SpecKind.satisfiable r) : ',' ∉ s := by
  unfold classify at h
  split at h
  · rename_i p0 p1 hs
    obtain ⟨heq, -, -⟩ := Split_pair s p0 p1 '-' hs
    have hcases : ',' ∉ p0 → ',' ∉ p1 → ',' ∉ s := by
      intro h0 h1 hm
      rw [heq] at hm
      rcases List.mem_append.mp hm with e | e
      · exact h0 e
      · rcases List.mem_cons.mp e with e | e
        · exact absurd e (by decide)
        · exact h1 e
    by_cases hp0 : p0 = []
    · rw [if_pos hp0] at h
      apply hcases (by rw [hp0]; simp)
      apply Atoi64_ok_no_comma
      rcases hA : Atoi64 p1 with ⟨n, e⟩
      rw [hA] at h
      cases e with
      | some e => simp at h
      | none => rfl
    · rw [if_neg hp0] at h
      rcases hA : Atoi64 p0 with ⟨a, ea⟩
      rcases hB : lastBytePos p1 with ⟨b, eb⟩
      rw [hA, hB] at h
      cases ea with
      | some e => simp at h
      | none =>
        cases eb with
        | some e => simp at h
        | none =>
          apply hcases
          · exact Atoi64_ok_no_comma p0 (by rw [hA])
          · by_cases hp1 : p1 = []
            · rw [hp1]
              simp
            · unfold lastBytePos at hB
              rw [if_neg hp1] at hB
              exact Atoi64_ok_no_comma p1 (by rw [hB])
  · simp at h

theorem Split_joinWith (specs : List (List Char)) (sep : Char) (hne : specs ≠ [])
    (h : ∀ s ∈ specs, sep ∉ s) : Split (joinWith sep specs) sep = specs := by
  induction specs with
  | nil => exact absurd rfl hne
  | cons p rest ih =>
    cases rest with
    | nil =>
      simp only [joinWith]
      exact Split_of_not_mem p sep (h p (by simp))
    | cons q qs =>
      simp only [joinWith]
      rw [Split_append_sep _ _ _ (h p (by simp))]
      rw [ih (by simp) (fun s hs => h s (by simp [hs]))]

/-- Within the capacity of the slice, a header of well-formed, satisfiable
specs is answered with one interval for each spec, in the order of the header:
the interval the spec gives when it is parsed alone. -/
theorem parse_all_satisfiable (L : Int) (specs : List (List Char)) (hL : inInt64 L)
    (hne : specs ≠ []) (hsat : allSatisfiable specs L) (hcap : specs.length ≤ rangesCap) :
    parseRangeHeader ("bytes=" ++ String.mk (joinWith ',' specs)) L =
      Result.ok (specs.filterMap (specInterval L)) ∧
    (specs.filterMap (specInterval L)).length = specs.length ∧
    ∀ s ∈ specs, ∃ r, specInterval L s = some r ∧
      parseRangeHeader ("bytes=" ++ String.mk s) L = Result.ok [r] := by
  have hcomma : ∀ s ∈ specs, ',' ∉ s := by
    intro s hs
    obtain ⟨r, hr⟩ := hsat s hs
    exact satisfiable_no_comma s L r hr
  refine ⟨?_, filterMap_allSatisfiable_length specs L hsat, ?_⟩
  · rw [parseRangeHeader_unit]
    simp only
    rw [Split_joinWith specs ',' hne hcomma]
    have := parseLoop_satisfiable L hL specs [] [] hsat (by simpa using hcap)
    rw [List.append_nil] at this
    rw [this]
    rfl
  · intro s hs
    obtain ⟨r, hr⟩ := hsat s hs
    refine ⟨r, specInterval_of_satisfiable s L r hr, ?_⟩
    rw [parseRangeHeader_unit]
    simp only
    rw [Split_of_not_mem s ',' (hcomma s hs), parseLoop_single,
      (rangeBody_of_classify s L hL).2.2 r hr]

/-- C11, at the failing input: eleven well-formed, satisfiable specs against an
entity of 10 bytes, each of which gives one interval when it is parsed alone.
The parser does not return the eleven intervals: the eleventh `appendRange`
exceeds the capacity of `ranges` and the call ends in a run-time failure. -/
theorem parse_eleven_satisfiable :
    (specsOf "bytes=0-0,1-1,2-2,3-3,4-4,5-5,6-6,7-7,8-8,9-9,-1").length = 11 ∧
    (specsOf "bytes=0-0,1-1,2-2,3-3,4-4,5-5,6-6,7-7,8-8,9-9,-1").filterMap (specInterval 10)
      = [ByteRange.mk 0 1, ByteRange.mk 1 1, ByteRange.mk 2 1, ByteRange.mk 3 1,
          ByteRange.mk 4 1, ByteRange.mk 5 1, ByteRange.mk 6 1, ByteRange.mk 7 1,
          ByteRange.mk 8 1, ByteRange.mk 9 1, ByteRange.mk 9 1] ∧
    (∀ s ∈ specsOf "bytes=0-0,1-1,2-2,3-3,4-4,5-5,6-6,7-7,8-8,9-9,-1",
      (specInterval 10 s).map (fun r => Result.ok [r])
        = some (parseRangeHeader ("bytes=" ++ String.mk s) 10)) ∧
    parseRangeHeader "bytes=0-0,1-1,2-2,3-3,4-4,5-5,6-6,7-7,8-8,9-9,-1" 10 = Result.panic ∧
    parseRangeHeader "bytes=0-0,1-1,2-2,3-3,4-4,5-5,6-6,7-7,8-8,9-9" 10
      = Result.ok [ByteRange.mk 0 1, ByteRange.mk 1 1, ByteRange.mk 2 1, ByteRange.mk 3 1,
          ByteRange.mk 4 1, ByteRange.mk 5 1, ByteRange.mk 6 1, ByteRange.mk 7 1,
          ByteRange.mk 8 1, ByteRange.mk 9 1] := by
  decide

end Rangehdr
